import Mathlib

/-!
Verification of the document-assembly scripts in this repository
(`新开户尽职调查表网页版.py` and `generate_report.py`).

Strings are modelled as `List Char` (`Str`).  Placeholder tokens
`{{key}}` are modelled as the canonical token text (the source regex
`\{\{\s*key\s*\}\}` additionally tolerates interior whitespace; the
canonical no-whitespace token is the token syntax used throughout the
template and the spec).  Brace characters are written `'\x7b'` / `'\x7d'`
(`{` / `}`).
-/

abbrev Str := List Char

/-- One text run of a paragraph.  A paragraph is its list of runs; the
paragraph's `.text` is the concatenation of the runs' texts. -/
abbrev Para := List Str

/-! ### `re.Pattern.subn` / `str.replace`: replace every (non-overlapping,
left-to-right) occurrence of `tok` by `val`.

`replaceAllAux` is fuel-based structural recursion so that it is kernel
computable; `replaceAll` instantiates the fuel with the string length,
which is always sufficient. -/

def replaceAllAux (tok val : Str) : Nat → Str → Str
  | 0, s => s
  | _ + 1, [] => []
  | fuel + 1, c :: cs =>
    if tok ≠ [] ∧ tok.isPrefixOf (c :: cs) then
      val ++ replaceAllAux tok val fuel ((c :: cs).drop tok.length)
    else
      c :: replaceAllAux tok val fuel cs

/-- Replace every occurrence of `tok` in `s` by `val`
(Python `pattern.subn(val, s)` for a literal pattern). -/
def replaceAll (tok val s : Str) : Str :=
  replaceAllAux tok val s.length s

/-- Count of the (non-overlapping, left-to-right) matches of `tok` in `s`
(Python `len(pattern.findall(s))` for a literal pattern). -/
def countOccAux (tok : Str) : Nat → Str → Nat
  | 0, _ => 0
  | _ + 1, [] => 0
  | fuel + 1, c :: cs =>
    if tok ≠ [] ∧ tok.isPrefixOf (c :: cs) then
      1 + countOccAux tok fuel ((c :: cs).drop tok.length)
    else
      countOccAux tok fuel cs

def countOcc (tok s : Str) : Nat :=
  countOccAux tok s.length s

/-! Fuel irrelevance and the three step equations of `replaceAll` and
`countOcc`.  All later proofs use only these equations, never the fuel. -/

theorem isPrefixOf_iff {l₁ l₂ : Str} : l₁.isPrefixOf l₂ = true ↔ l₁ <+: l₂ :=
  List.isPrefixOf_iff_prefix

theorem replaceAllAux_irrel (tok val : Str) :
    ∀ f₁ f₂ s, s.length ≤ f₁ → s.length ≤ f₂ →
      replaceAllAux tok val f₁ s = replaceAllAux tok val f₂ s := by
  intro f₁
  induction f₁ with
  | zero =>
    intro f₂ s h₁ _
    have hs : s = [] := List.length_eq_zero.mp (Nat.le_zero.mp h₁)
    subst hs
    cases f₂ <;> rfl
  | succ f ih =>
    intro f₂ s h₁ h₂
    cases s with
    | nil => cases f₂ <;> rfl
    | cons c cs =>
      cases f₂ with
      | zero => simp at h₂
      | succ g =>
        simp only [replaceAllAux]
        split
        · rename_i hcond
          have htok : tok ≠ [] := hcond.1
          have h0 : 0 < tok.length := List.length_pos.mpr htok
          have hlen : ((c :: cs).drop tok.length).length ≤ f := by
            simp only [List.length_drop, List.length_cons]
            simp only [List.length_cons] at h₁
            omega
          have hlen' : ((c :: cs).drop tok.length).length ≤ g := by
            simp only [List.length_drop, List.length_cons]
            simp only [List.length_cons] at h₂
            omega
          rw [ih g _ hlen hlen']
        · have hlen : cs.length ≤ f := by
            simp only [List.length_cons] at h₁; omega
          have hlen' : cs.length ≤ g := by
            simp only [List.length_cons] at h₂; omega
          rw [ih g _ hlen hlen']

theorem replaceAll_nil (tok val : Str) : replaceAll tok val [] = [] := rfl

theorem replaceAll_cons_pos {tok : Str} (val : Str) {c : Char} {cs : Str}
    (htok : tok ≠ []) (hp : tok <+: c :: cs) :
    replaceAll tok val (c :: cs) =
      val ++ replaceAll tok val ((c :: cs).drop tok.length) := by
  have hp' : tok.isPrefixOf (c :: cs) = true := isPrefixOf_iff.mpr hp
  show replaceAllAux tok val (cs.length + 1) (c :: cs) = _
  simp only [replaceAllAux, htok, hp', ne_eq, not_false_eq_true, true_and, if_pos]
  congr 1
  apply replaceAllAux_irrel
  · have : 0 < tok.length := List.length_pos.mpr htok
    simp only [List.length_drop, List.length_cons]
    omega
  · exact Nat.le_refl _

theorem replaceAll_cons_neg {tok : Str} (val : Str) {c : Char} {cs : Str}
    (h : ¬(tok ≠ [] ∧ tok <+: c :: cs)) :
    replaceAll tok val (c :: cs) = c :: replaceAll tok val cs := by
  have h' : ¬(tok ≠ [] ∧ tok.isPrefixOf (c :: cs) = true) := by
    intro ⟨h1, h2⟩; exact h ⟨h1, isPrefixOf_iff.mp h2⟩
  show replaceAllAux tok val (cs.length + 1) (c :: cs) = _
  simp only [replaceAllAux, if_neg h']
  rfl

theorem countOccAux_irrel (tok : Str) :
    ∀ f₁ f₂ s, s.length ≤ f₁ → s.length ≤ f₂ →
      countOccAux tok f₁ s = countOccAux tok f₂ s := by
  intro f₁
  induction f₁ with
  | zero =>
    intro f₂ s h₁ _
    have hs : s = [] := List.length_eq_zero.mp (Nat.le_zero.mp h₁)
    subst hs
    cases f₂ <;> rfl
  | succ f ih =>
    intro f₂ s h₁ h₂
    cases s with
    | nil => cases f₂ <;> rfl
    | cons c cs =>
      cases f₂ with
      | zero => simp at h₂
      | succ g =>
        simp only [countOccAux]
        split
        · rename_i hcond
          have htok : tok ≠ [] := hcond.1
          have h0 : 0 < tok.length := List.length_pos.mpr htok
          have hlen : ((c :: cs).drop tok.length).length ≤ f := by
            simp only [List.length_drop, List.length_cons]
            simp only [List.length_cons] at h₁
            omega
          have hlen' : ((c :: cs).drop tok.length).length ≤ g := by
            simp only [List.length_drop, List.length_cons]
            simp only [List.length_cons] at h₂
            omega
          rw [ih g _ hlen hlen']
        · have hlen : cs.length ≤ f := by
            simp only [List.length_cons] at h₁; omega
          have hlen' : cs.length ≤ g := by
            simp only [List.length_cons] at h₂; omega
          rw [ih g _ hlen hlen']

theorem countOcc_nil (tok : Str) : countOcc tok [] = 0 := rfl

theorem countOcc_cons_pos {tok : Str} {c : Char} {cs : Str}
    (htok : tok ≠ []) (hp : tok <+: c :: cs) :
    countOcc tok (c :: cs) = 1 + countOcc tok ((c :: cs).drop tok.length) := by
  have hp' : tok.isPrefixOf (c :: cs) = true := isPrefixOf_iff.mpr hp
  show countOccAux tok (cs.length + 1) (c :: cs) = _
  simp only [countOccAux, htok, hp', ne_eq, not_false_eq_true, true_and, if_pos]
  congr 1
  apply countOccAux_irrel
  · have : 0 < tok.length := List.length_pos.mpr htok
    simp only [List.length_drop, List.length_cons]
    omega
  · exact Nat.le_refl _

theorem countOcc_cons_neg {tok : Str} {c : Char} {cs : Str}
    (h : ¬(tok ≠ [] ∧ tok <+: c :: cs)) :
    countOcc tok (c :: cs) = countOcc tok cs := by
  have h' : ¬(tok ≠ [] ∧ tok.isPrefixOf (c :: cs) = true) := by
    intro ⟨h1, h2⟩; exact h ⟨h1, isPrefixOf_iff.mp h2⟩
  show countOccAux tok (cs.length + 1) (c :: cs) = _
  simp only [countOccAux, if_neg h']
  rfl

/-! ### Decomposition lemmas for prefix / suffix / infix across an append. -/

theorem suffix_append_split {P A B : Str} (h : P <:+ A ++ B) :
    P <:+ B ∨ ∃ t, t ≠ [] ∧ t <:+ A ∧ P = t ++ B := by
  obtain ⟨u, hu⟩ := h
  rcases List.append_eq_append_iff.mp hu with ⟨a', ha, hp⟩ | ⟨c', _, hb⟩
  · rcases eq_or_ne a' [] with rfl | hne
    · left; simpa using hp.symm ▸ List.suffix_refl B
    · right; exact ⟨a', hne, ⟨u, ha.symm⟩, hp⟩
  · left; exact ⟨c', hb.symm⟩

theorem prefix_append_split {P A B : Str} (h : P <+: A ++ B) :
    P <+: A ∨ ∃ t, P = A ++ t ∧ t <+: B := by
  obtain ⟨v, hv⟩ := h
  rcases List.append_eq_append_iff.mp hv with ⟨a', ha, _⟩ | ⟨c', hp, hb⟩
  · left; exact ⟨a', ha.symm⟩
  · right; exact ⟨c', hp, ⟨v, hb.symm⟩⟩

theorem infix_append_split {T A B : Str} (h : T <:+: A ++ B) :
    T <:+: A ∨ T <:+: B ∨
      ∃ t₁ t₂, t₁ ≠ [] ∧ t₂ ≠ [] ∧ T = t₁ ++ t₂ ∧ t₁ <:+ A ∧ t₂ <+: B := by
  obtain ⟨u, v, huv⟩ := h
  have huv' : u ++ (T ++ v) = A ++ B := by
    simpa [List.append_assoc] using huv
  rcases List.append_eq_append_iff.mp huv' with ⟨a', ha, htv⟩ | ⟨c', _, hb⟩
  · rcases List.append_eq_append_iff.mp htv with ⟨x, hax, _⟩ | ⟨x, htx, hbx⟩
    · -- a' = T ++ x : T is a prefix of a suffix of A
      left
      have h1 : T <:+: a' := (List.prefix_append T x).isInfix.trans (by rw [hax])
      exact h1.trans ⟨u, [], by simp [ha]⟩
    · -- T = a' ++ x, B = x ++ v
      rcases eq_or_ne a' [] with rfl | hne
      · right; left
        have hTx : T = x := by simpa using htx
        rw [hbx, ← hTx]
        exact (List.prefix_append T v).isInfix
      · rcases eq_or_ne x [] with rfl | hxe
        · left
          have hTa : T = a' := by simpa using htx
          have : T <:+ A := by
            rw [ha, hTa]; exact List.suffix_append u a'
          exact this.isInfix
        · right; right
          exact ⟨a', x, hne, hxe, htx, ⟨u, ha.symm⟩, ⟨v, hbx.symm⟩⟩
  · right; left
    rw [hb]
    exact ⟨c', v, by simp [List.append_assoc]⟩

theorem append_of_suffix_prefix {t₁ t₂ A B : Str} (h₁ : t₁ <:+ A) (h₂ : t₂ <+: B) :
    t₁ ++ t₂ <:+: A ++ B := by
  obtain ⟨u, hu⟩ := h₁
  obtain ⟨v, hv⟩ := h₂
  exact ⟨u, v, by rw [← hu, ← hv]; simp [List.append_assoc]⟩

theorem prefix_append_mono {t X : Str} (r : Str) (h : t <+: X) : r ++ t <+: r ++ X := by
  obtain ⟨w, hw⟩ := h
  exact ⟨w, by rw [List.append_assoc, hw]⟩

/-- If no character of `A` lies in `T` and `T` is nonempty, an occurrence of
`T` in `A ++ B` must lie entirely inside `B`. -/
theorem infix_append_right_of_disjoint {T A B : Str} (hT : T ≠ [])
    (hd : ∀ c ∈ A, c ∉ T) (h : T <:+: A ++ B) : T <:+: B := by
  induction A with
  | nil => simpa using h
  | cons d vs ih =>
    have h' : T <:+: d :: (vs ++ B) := by simpa using h
    rcases List.infix_cons_iff.mp h' with hpre | hinf
    · cases T with
      | nil => exact absurd rfl hT
      | cons t T' =>
        have := (List.cons_prefix_cons.mp hpre).1
        exact absurd (this ▸ List.mem_cons_self t T')
          (hd d (List.mem_cons_self d vs))
    · exact ih (fun c hc => hd c (List.mem_cons_of_mem d hc)) hinf

/-! ### Behaviour of `replaceAll`. -/

/-- A prefix match lets us split the string as `tok ++ rest`. -/
theorem eq_append_drop_of_prefix {tok s : Str} (h : tok <+: s) :
    s = tok ++ s.drop tok.length := by
  obtain ⟨t, rfl⟩ := h
  rw [List.drop_left]

/-- If `tok` does not occur in `s`, `replaceAll` leaves `s` unchanged. -/
theorem replaceAll_of_not_occurs {tok val : Str} :
    ∀ n s, s.length ≤ n → ¬ tok <:+: s → replaceAll tok val s = s := by
  intro n
  induction n with
  | zero =>
    intro s h _
    have := List.length_eq_zero.mp (Nat.le_zero.mp h)
    subst this; rfl
  | succ n ih =>
    intro s hlen hno
    cases s with
    | nil => rfl
    | cons c cs =>
      have hm : ¬(tok ≠ [] ∧ tok <+: c :: cs) := by
        rintro ⟨_, hp⟩; exact hno hp.isInfix
      rw [replaceAll_cons_neg val hm]
      have : ¬ tok <:+: cs := fun hcs => hno (hcs.trans (List.suffix_cons c cs).isInfix)
      rw [ih cs (by simpa using Nat.lt_succ_iff.mp (Nat.lt_of_lt_of_le (by simp) hlen)) this]

/-- Either `replaceAll` changes nothing, or the replacement value occurs in
the result. -/
theorem replaceAll_eq_or_val {tok val : Str} :
    ∀ n s, s.length ≤ n →
      replaceAll tok val s = s ∨ val <:+: replaceAll tok val s := by
  intro n
  induction n with
  | zero =>
    intro s h
    have := List.length_eq_zero.mp (Nat.le_zero.mp h)
    subst this; left; rfl
  | succ n ih =>
    intro s hlen
    cases s with
    | nil => left; rfl
    | cons c cs =>
      by_cases hm : tok ≠ [] ∧ tok <+: c :: cs
      · right
        rw [replaceAll_cons_pos val hm.1 hm.2]
        exact (List.prefix_append val _).isInfix
      · rw [replaceAll_cons_neg val hm]
        rcases ih cs (by simp at hlen; omega) with heq | hval
        · left; rw [heq]
        · right; exact hval.trans (List.suffix_cons c _).isInfix

/-- If `tok` occurs in `s`, the replacement value occurs in the result. -/
theorem val_occurs_replaceAll {tok val : Str} (htok : tok ≠ []) :
    ∀ n s, s.length ≤ n → tok <:+: s → val <:+: replaceAll tok val s := by
  intro n
  induction n with
  | zero =>
    intro s h hocc
    have := List.length_eq_zero.mp (Nat.le_zero.mp h)
    subst this
    exact absurd (List.infix_nil.mp hocc) htok
  | succ n ih =>
    intro s hlen hocc
    cases s with
    | nil => exact absurd (List.infix_nil.mp hocc) htok
    | cons c cs =>
      by_cases hm : tok <+: c :: cs
      · rw [replaceAll_cons_pos val htok hm]
        exact (List.prefix_append val _).isInfix
      · rw [replaceAll_cons_neg val (fun h => hm h.2)]
        rcases List.infix_cons_iff.mp hocc with hpre | hinf
        · exact absurd hpre hm
        · exact (ih cs (by simp at hlen; omega) hinf).trans
            (List.suffix_cons c _).isInfix

/-- A prefix of `s` sharing no character with `tok` survives `replaceAll`
as a prefix. -/
theorem prefix_replaceAll_of_disjoint {tok val : Str} :
    ∀ V s, (∀ c ∈ V, c ∉ tok) → V <+: s → V <+: replaceAll tok val s := by
  intro V
  induction V with
  | nil => intro s _ _; exact List.nil_prefix
  | cons d W ih =>
    intro s hd hp
    cases s with
    | nil => simp at hp
    | cons c cs =>
      obtain ⟨hdc, hW⟩ := List.cons_prefix_cons.mp hp
      subst hdc
      have hm : ¬(tok ≠ [] ∧ tok <+: d :: cs) := by
        rintro ⟨hne, hpre⟩
        cases tok with
        | nil => exact hne rfl
        | cons t tok' =>
          have := (List.cons_prefix_cons.mp hpre).1
          exact hd d (List.mem_cons_self d W) (this ▸ List.mem_cons_self t tok')
      rw [replaceAll_cons_neg val hm]
      exact List.cons_prefix_cons.mpr
        ⟨rfl, ih cs (fun c hc => hd c (List.mem_cons_of_mem d hc)) hW⟩

/-- A nonempty prefix of the *result* of `replaceAll` which shares no
character with `val` was already a prefix of the source string. -/
theorem prefix_of_prefix_replaceAll {tok val : Str} (hval : val ≠ []) :
    ∀ n s T, s.length ≤ n → T ≠ [] → (∀ c ∈ T, c ∉ val) →
      T <+: replaceAll tok val s → T <+: s := by
  intro n
  induction n with
  | zero =>
    intro s T h hT _ hp
    have := List.length_eq_zero.mp (Nat.le_zero.mp h)
    subst this
    exact absurd (List.prefix_nil.mp hp) hT
  | succ n ih =>
    intro s T hlen hT hdisj hp
    cases s with
    | nil => exact absurd (List.prefix_nil.mp hp) hT
    | cons c cs =>
      by_cases hm : tok ≠ [] ∧ tok <+: c :: cs
      · rw [replaceAll_cons_pos val hm.1 hm.2] at hp
        cases T with
        | nil => exact absurd rfl hT
        | cons t T' =>
          cases val with
          | nil => exact absurd rfl hval
          | cons v val' =>
            have := (List.cons_prefix_cons.mp hp).1
            exact absurd (this ▸ List.mem_cons_self v val')
              (hdisj t (List.mem_cons_self t T'))
      · rw [replaceAll_cons_neg val hm] at hp
        cases T with
        | nil => exact absurd rfl hT
        | cons t T' =>
          obtain ⟨htc, hT'⟩ := List.cons_prefix_cons.mp hp
          subst htc
          rcases eq_or_ne T' [] with rfl | hT'e
          · exact List.cons_prefix_cons.mpr ⟨rfl, List.nil_prefix⟩
          · have := ih cs T' (by simp at hlen; omega) hT'e
              (fun c hc => hdisj c (List.mem_cons_of_mem t hc)) hT'
            exact List.cons_prefix_cons.mpr ⟨rfl, this⟩

/-- After `replaceAll tok val s` the token no longer occurs, provided the
replacement value is nonempty and shares no character with the token. -/
theorem not_occurs_replaceAll {tok val : Str} (htok : tok ≠ []) (hval : val ≠ [])
    (hdisj : ∀ c ∈ val, c ∉ tok) :
    ∀ n s, s.length ≤ n → ¬ tok <:+: replaceAll tok val s := by
  intro n
  induction n with
  | zero =>
    intro s h hocc
    have := List.length_eq_zero.mp (Nat.le_zero.mp h)
    subst this
    exact htok (List.infix_nil.mp hocc)
  | succ n ih =>
    intro s hlen hocc
    cases s with
    | nil => exact htok (List.infix_nil.mp hocc)
    | cons c cs =>
      by_cases hm : tok <+: c :: cs
      · rw [replaceAll_cons_pos val htok hm] at hocc
        have h0 : 0 < tok.length := List.length_pos.mpr htok
        have : tok <:+: replaceAll tok val ((c :: cs).drop tok.length) :=
          infix_append_right_of_disjoint htok hdisj hocc
        exact ih ((c :: cs).drop tok.length)
          (by simp only [List.length_drop, List.length_cons]
              simp only [List.length_cons] at hlen; omega) this
      · rw [replaceAll_cons_neg val (fun h => hm h.2)] at hocc
        rcases List.infix_cons_iff.mp hocc with hpre | hinf
        · -- tok = c :: t' with t' a prefix of the recursive result
          cases tok with
          | nil => exact htok rfl
          | cons t t' =>
            obtain ⟨htc, ht'⟩ := List.cons_prefix_cons.mp hpre
            subst htc
            rcases eq_or_ne t' [] with rfl | ht'e
            · exact hm (List.cons_prefix_cons.mpr ⟨rfl, List.nil_prefix⟩)
            · have hdisj' : ∀ c ∈ t', c ∉ val := by
                intro ch hch hchv
                exact hdisj ch hchv (List.mem_cons_of_mem t hch)
              have := prefix_of_prefix_replaceAll hval cs.length cs t'
                (Nat.le_refl _) ht'e hdisj' ht'
              exact hm (List.cons_prefix_cons.mpr ⟨rfl, this⟩)
        · exact ih cs (by simp at hlen; omega) hinf

/-- A nonempty string `T` absent from `s` stays absent after replacing
`tok` by a nonempty value sharing no character with `T`. -/
theorem occurs_of_occurs_replaceAll {tok val : Str} (hval : val ≠ [])
    (hdisj : ∀ c ∈ val, c ∉ T) (hT : T ≠ []) :
    ∀ n s, s.length ≤ n → T <:+: replaceAll tok val s → T <:+: s := by
  intro n
  induction n with
  | zero =>
    intro s h hocc
    have := List.length_eq_zero.mp (Nat.le_zero.mp h)
    subst this
    exact absurd (List.infix_nil.mp hocc) hT
  | succ n ih =>
    intro s hlen hocc
    cases s with
    | nil => exact absurd (List.infix_nil.mp hocc) hT
    | cons c cs =>
      by_cases hm : tok ≠ [] ∧ tok <+: c :: cs
      · rw [replaceAll_cons_pos val hm.1 hm.2] at hocc
        have h0 : 0 < tok.length := List.length_pos.mpr hm.1
        have h1 : T <:+: replaceAll tok val ((c :: cs).drop tok.length) :=
          infix_append_right_of_disjoint hT hdisj hocc
        have h2 := ih ((c :: cs).drop tok.length)
          (by simp only [List.length_drop, List.length_cons]
              simp only [List.length_cons] at hlen; omega) h1
        exact h2.trans (List.drop_suffix tok.length (c :: cs)).isInfix
      · rw [replaceAll_cons_neg val hm] at hocc
        rcases List.infix_cons_iff.mp hocc with hpre | hinf
        · cases T with
          | nil => exact absurd rfl hT
          | cons t T' =>
            obtain ⟨htc, hT'⟩ := List.cons_prefix_cons.mp hpre
            subst htc
            rcases eq_or_ne T' [] with rfl | hT'e
            · exact (List.cons_prefix_cons.mpr ⟨rfl, List.nil_prefix⟩).isInfix
            · have hdisj' : ∀ c ∈ T', c ∉ val := by
                intro ch hch hchv
                exact hdisj ch hchv (List.mem_cons_of_mem t hch)
              have := prefix_of_prefix_replaceAll hval cs.length cs T'
                (Nat.le_refl _) hT'e hdisj' hT'
              exact (List.cons_prefix_cons.mpr ⟨rfl, this⟩).isInfix
        · exact (ih cs (by simp at hlen; omega) hinf).trans
            (List.suffix_cons c cs).isInfix

/-- An occurrence of a string sharing no character with `tok` survives
`replaceAll`. -/
theorem occurs_replaceAll_of_occurs {tok val V : Str}
    (hdisj : ∀ c ∈ V, c ∉ tok) :
    ∀ n s, s.length ≤ n → V <:+: s → V <:+: replaceAll tok val s := by
  intro n
  induction n with
  | zero =>
    intro s h hw
    have := List.length_eq_zero.mp (Nat.le_zero.mp h)
    subst this
    have hV : V = [] := by simpa using hw
    subst hV
    exact List.nil_infix
  | succ n ih =>
    intro s hlen hw
    rcases eq_or_ne V [] with rfl | hV
    · exact List.nil_infix
    cases s with
    | nil =>
      have hV2 : V = [] := by simpa using hw
      exact absurd hV2 hV
    | cons c cs =>
      by_cases hm : tok ≠ [] ∧ tok <+: c :: cs
      · rw [replaceAll_cons_pos val hm.1 hm.2]
        have h0 : 0 < tok.length := List.length_pos.mpr hm.1
        have hsplit : c :: cs = tok ++ (c :: cs).drop tok.length :=
          eq_append_drop_of_prefix hm.2
        have hVdrop : V <:+: (c :: cs).drop tok.length := by
          apply infix_append_right_of_disjoint hV
            (fun ch hch hchV => hdisj ch hchV hch)
          rw [← hsplit]; exact hw
        have := ih ((c :: cs).drop tok.length)
          (by simp only [List.length_drop, List.length_cons]
              simp only [List.length_cons] at hlen; omega) hVdrop
        exact this.trans (List.suffix_append val _).isInfix
      · rw [replaceAll_cons_neg val hm]
        rcases List.infix_cons_iff.mp hw with hpre | hinf
        · cases V with
          | nil => exact List.nil_infix
          | cons v V' =>
            obtain ⟨hvc, hV'⟩ := List.cons_prefix_cons.mp hpre
            subst hvc
            have := @prefix_replaceAll_of_disjoint tok val V' cs
              (fun ch hch => hdisj ch (List.mem_cons_of_mem v hch)) hV'
            exact (List.cons_prefix_cons.mpr ⟨rfl, this⟩).isInfix
        · exact (ih cs (by simp at hlen; omega) hinf).trans
            (List.suffix_cons c _).isInfix

/-! ### Survival of protected pieces under `replaceAll`.

A piece `P` of another token cannot be touched by a `replaceAll` pass whose
token does not overlap `P` in any way.  The non-overlap conditions are
later discharged by `decide` for the three concrete placeholder tokens. -/

/-- A suffix `P` of `s` survives a `replaceAll` pass whose token neither
occurs inside `P` nor has a nonempty suffix that is a prefix of `P`. -/
theorem suffix_replaceAll_protected {tok val P : Str}
    (h1 : ¬ tok <:+: P)
    (h2 : ∀ t, t <:+ tok → t ≠ [] → ¬ t <+: P) :
    ∀ n s, s.length ≤ n → P <:+ s → P <:+ replaceAll tok val s := by
  intro n
  induction n with
  | zero =>
    intro s h hs
    have := List.length_eq_zero.mp (Nat.le_zero.mp h)
    subst this
    have : P = [] := List.suffix_nil.mp hs
    subst this
    exact List.nil_suffix
  | succ n ih =>
    intro s hlen hs
    cases s with
    | nil =>
      have : P = [] := List.suffix_nil.mp hs
      subst this
      exact List.nil_suffix
    | cons c cs =>
      by_cases hm : tok ≠ [] ∧ tok <+: c :: cs
      · rw [replaceAll_cons_pos val hm.1 hm.2]
        have hsplit : c :: cs = tok ++ (c :: cs).drop tok.length :=
          eq_append_drop_of_prefix hm.2
        rw [hsplit] at hs
        rcases suffix_append_split hs with hrest | ⟨t, htne, htt, hPt⟩
        · have h0 : 0 < tok.length := List.length_pos.mpr hm.1
          have := ih ((c :: cs).drop tok.length)
            (by simp only [List.length_drop, List.length_cons]
                simp only [List.length_cons] at hlen; omega) hrest
          exact this.trans (List.suffix_append val _)
        · exact absurd ⟨(c :: cs).drop tok.length, hPt.symm⟩ (h2 t htt htne)
      · rw [replaceAll_cons_neg val hm]
        rcases List.suffix_cons_iff.mp hs with hall | htail
        · -- P is the whole string: no occurrence of tok inside it
          have hnotail : ¬ tok <:+: cs := by
            intro hcs
            exact h1 (hcs.trans ((List.suffix_cons c cs).isInfix.trans
              (by rw [← hall])))
          rw [replaceAll_of_not_occurs cs.length cs (Nat.le_refl _) hnotail]
          rw [hall]
        · exact (ih cs (by simp at hlen; omega) htail).trans
            (List.suffix_cons c _)

/-- A prefix `P` of `s` survives a `replaceAll` pass whose token neither
occurs inside `P` nor has a nonempty prefix that is a suffix of `P`. -/
theorem prefix_replaceAll_protected {tok val : Str} :
    ∀ n s P, s.length ≤ n →
      (¬ tok <:+: P) →
      (∀ t, t <+: tok → t ≠ [] → ¬ t <:+ P) →
      P <+: s → P <+: replaceAll tok val s := by
  intro n
  induction n with
  | zero =>
    intro s P h _ _ hp
    have := List.length_eq_zero.mp (Nat.le_zero.mp h)
    subst this
    have : P = [] := List.prefix_nil.mp hp
    subst this
    exact List.nil_prefix
  | succ n ih =>
    intro s P hlen h1 h2 hp
    cases s with
    | nil =>
      have : P = [] := List.prefix_nil.mp hp
      subst this
      exact List.nil_prefix
    | cons c cs =>
      by_cases hm : tok ≠ [] ∧ tok <+: c :: cs
      · rcases eq_or_ne P [] with rfl | hPne
        · exact List.nil_prefix
        exfalso
        have hsplit : c :: cs = tok ++ (c :: cs).drop tok.length :=
          eq_append_drop_of_prefix hm.2
        rw [hsplit] at hp
        rcases prefix_append_split hp with hptok | ⟨t, hPt, _⟩
        · exact h2 P hptok hPne (List.suffix_refl P)
        · have : tok <+: P := ⟨t, hPt.symm⟩
          exact h1 this.isInfix
      · rw [replaceAll_cons_neg val hm]
        cases P with
        | nil => exact List.nil_prefix
        | cons p P' =>
          obtain ⟨hpc, hP'⟩ := List.cons_prefix_cons.mp hp
          subst hpc
          have h1' : ¬ tok <:+: P' := fun h =>
            h1 (h.trans (List.suffix_cons p P').isInfix)
          have h2' : ∀ t, t <+: tok → t ≠ [] → ¬ t <:+ P' := by
            intro t ht htne hts
            exact h2 t ht htne (hts.trans (List.suffix_cons p P'))
          exact List.cons_prefix_cons.mpr
            ⟨rfl, ih cs P' (by simp at hlen; omega) h1' h2' hP'⟩

/-- An occurrence of `P` in `s` survives a `replaceAll` pass whose token
does not overlap `P` in any way. -/
theorem infix_replaceAll_protected {tok val P : Str}
    (h1 : ¬ tok <:+: P) (h2 : ¬ P <:+: tok)
    (h3 : ∀ t, t <:+ tok → t ≠ [] → ¬ t <+: P)
    (h4 : ∀ t, t <+: tok → t ≠ [] → ¬ t <:+ P) :
    ∀ n s, s.length ≤ n → P <:+: s → P <:+: replaceAll tok val s := by
  intro n
  induction n with
  | zero =>
    intro s h hocc
    have := List.length_eq_zero.mp (Nat.le_zero.mp h)
    subst this
    have : P = [] := List.infix_nil.mp hocc
    subst this
    exact List.nil_infix
  | succ n ih =>
    intro s hlen hocc
    cases s with
    | nil =>
      have : P = [] := List.infix_nil.mp hocc
      subst this
      exact List.nil_infix
    | cons c cs =>
      by_cases hm : tok ≠ [] ∧ tok <+: c :: cs
      · rw [replaceAll_cons_pos val hm.1 hm.2]
        have hsplit : c :: cs = tok ++ (c :: cs).drop tok.length :=
          eq_append_drop_of_prefix hm.2
        rw [hsplit] at hocc
        rcases infix_append_split hocc with hintok | hinrest | ⟨t₁, t₂, ht₁, _, hPt, ht₁tok, _⟩
        · exact absurd hintok h2
        · have h0 : 0 < tok.length := List.length_pos.mpr hm.1
          have := ih ((c :: cs).drop tok.length)
            (by simp only [List.length_drop, List.length_cons]
                simp only [List.length_cons] at hlen; omega) hinrest
          exact this.trans (List.suffix_append val _).isInfix
        · exact absurd ⟨t₂, hPt.symm⟩ (h3 t₁ ht₁tok ht₁)
      · rw [replaceAll_cons_neg val hm]
        rcases List.infix_cons_iff.mp hocc with hpre | hinf
        · cases P with
          | nil => exact List.nil_infix
          | cons p P' =>
            obtain ⟨hpc, hP'⟩ := List.cons_prefix_cons.mp hpre
            subst hpc
            have h1' : ¬ tok <:+: P' := fun h =>
              h1 (h.trans (List.suffix_cons p P').isInfix)
            have h4' : ∀ t, t <+: tok → t ≠ [] → ¬ t <:+ P' := by
              intro t ht htne hts
              exact h4 t ht htne (hts.trans (List.suffix_cons p P'))
            have := @prefix_replaceAll_protected tok val cs.length cs P'
              (Nat.le_refl _) h1' h4' hP'
            exact (List.cons_prefix_cons.mpr ⟨rfl, this⟩).isInfix
        · exact (ih cs (by simp at hlen; omega) hinf).trans
            (List.suffix_cons c _).isInfix

/-! ### Placeholder keys and tokens (`PLACEHOLDER_KEYS`, pattern `\{\{key\}\}`). -/

/-- The canonical token text of a key: `{{key}}`. -/
def tokenOf (k : Str) : Str := '\x7b' :: '\x7b' :: (k ++ ['\x7d', '\x7d'])

theorem tokenOf_ne_nil (k : Str) : tokenOf k ≠ [] := by simp [tokenOf]

def keyCustomer : Str := ['客', '户', '名', '称']
def keyIndustry : Str := ['行', '业', '分', '类']
def keyAddress : Str := ['经', '营', '地', '址']

/-- `PLACEHOLDER_KEYS = ("客户名称", "行业分类", "经营地址")`. -/
def PLACEHOLDER_KEYS : List Str := [keyCustomer, keyIndustry, keyAddress]

/-- Dict iteration order of `_apply_patterns`: apply each key's pattern in
turn to the evolving text (`pattern.subn` for each key of `values`). -/
def applyPatterns (kvs : List (Str × Str)) (s : Str) : Str :=
  kvs.foldl (fun acc kv => replaceAll (tokenOf kv.1) kv.2 acc) s

theorem applyPatterns_nil (s : Str) : applyPatterns [] s = s := rfl

theorem applyPatterns_cons (kv : Str × Str) (kvs : List (Str × Str)) (s : Str) :
    applyPatterns (kv :: kvs) s =
      applyPatterns kvs (replaceAll (tokenOf kv.1) kv.2 s) := rfl

/-- `tok` and `P` do not overlap: neither occurs inside the other, no
nonempty suffix of `tok` is a prefix of `P`, and no nonempty prefix of
`tok` is a suffix of `P`. -/
def NoOverlap (tok P : Str) : Prop :=
  (¬ tok <:+: P) ∧ (¬ P <:+: tok) ∧
    (∀ t, t <:+ tok → t ≠ [] → ¬ t <+: P) ∧
    (∀ t, t <+: tok → t ≠ [] → ¬ t <:+ P)

/-- Decidable bounded reformulation of `NoOverlap`. -/
def noOverlapB (tok P : Str) : Prop :=
  (¬ tok <:+: P) ∧ (¬ P <:+: tok) ∧
    (∀ t ∈ tok.tails, t ≠ [] → ¬ t <+: P) ∧
    (∀ t ∈ tok.inits, t ≠ [] → ¬ t <:+ P)

instance (tok P : Str) : Decidable (noOverlapB tok P) := by
  unfold noOverlapB
  infer_instance

theorem noOverlap_of_b {tok P : Str} (h : noOverlapB tok P) : NoOverlap tok P :=
  ⟨h.1, h.2.1,
    fun t ht => h.2.2.1 t ((List.mem_tails t tok).mpr ht),
    fun t ht => h.2.2.2 t ((List.mem_inits t tok).mpr ht)⟩

/-! The three concrete tokens pairwise do not overlap. -/

theorem noOverlap_12 : NoOverlap (tokenOf keyCustomer) (tokenOf keyIndustry) :=
  noOverlap_of_b (by decide)

theorem noOverlap_21 : NoOverlap (tokenOf keyIndustry) (tokenOf keyCustomer) :=
  noOverlap_of_b (by decide)

theorem noOverlap_13 : NoOverlap (tokenOf keyCustomer) (tokenOf keyAddress) :=
  noOverlap_of_b (by decide)

theorem noOverlap_31 : NoOverlap (tokenOf keyAddress) (tokenOf keyCustomer) :=
  noOverlap_of_b (by decide)

theorem noOverlap_23 : NoOverlap (tokenOf keyIndustry) (tokenOf keyAddress) :=
  noOverlap_of_b (by decide)

theorem noOverlap_32 : NoOverlap (tokenOf keyAddress) (tokenOf keyIndustry) :=
  noOverlap_of_b (by decide)

/-! ### Lifting the single-pass lemmas through `applyPatterns`. -/

/-- An occurrence of `V` survives the whole multi-key pass when `V` shares
no character with any of the tokens. -/
theorem applyPatterns_keeps_occurrence {V : Str} :
    ∀ kvs s, (∀ kv ∈ kvs, ∀ c ∈ V, c ∉ tokenOf kv.1) →
      V <:+: s → V <:+: applyPatterns kvs s := by
  intro kvs
  induction kvs with
  | nil => intro s _ h; exact h
  | cons kv rest ih =>
    intro s hd h
    rw [applyPatterns_cons]
    refine ih _ (fun kv' hkv' => hd kv' (List.mem_cons_of_mem kv hkv')) ?_
    exact occurs_replaceAll_of_occurs (hd kv (List.mem_cons_self kv rest))
      s.length s (Nat.le_refl _) h

/-- Absence of a nonempty `T` is preserved by the whole multi-key pass when
every value is nonempty and shares no character with `T`. -/
theorem applyPatterns_keeps_absence {T : Str} (hT : T ≠ []) :
    ∀ kvs s, (∀ kv ∈ kvs, kv.2 ≠ [] ∧ ∀ c ∈ kv.2, c ∉ T) →
      ¬ T <:+: s → ¬ T <:+: applyPatterns kvs s := by
  intro kvs
  induction kvs with
  | nil => intro s _ h; exact h
  | cons kv rest ih =>
    intro s hv h
    rw [applyPatterns_cons]
    refine ih _ (fun kv' hkv' => hv kv' (List.mem_cons_of_mem kv hkv')) ?_
    intro hocc
    exact h (occurs_of_occurs_replaceAll (hv kv (List.mem_cons_self kv rest)).1
      (hv kv (List.mem_cons_self kv rest)).2 hT s.length s (Nat.le_refl _) hocc)

/-- After a multi-key pass containing the pair `(ki, vi)` (all values
nonempty, no value sharing a character with `tokenOf ki`), the token
`tokenOf ki` no longer occurs. -/
theorem applyPatterns_removes_token {ki vi : Str} :
    ∀ kvs s, (ki, vi) ∈ kvs →
      (∀ kv ∈ kvs, kv.2 ≠ [] ∧ ∀ c ∈ kv.2, c ∉ tokenOf ki) →
      ¬ tokenOf ki <:+: applyPatterns kvs s := by
  intro kvs
  induction kvs with
  | nil => intro s h; simp at h
  | cons kv rest ih =>
    intro s hmem hv
    rcases List.mem_cons.mp hmem with heq | hrest
    · rw [applyPatterns_cons]
      have h1 := hv kv (List.mem_cons_self kv rest)
      have hstep : ¬ tokenOf ki <:+: replaceAll (tokenOf kv.1) kv.2 s := by
        rw [← heq]
        exact not_occurs_replaceAll (tokenOf_ne_nil ki) (by rw [← heq] at h1; exact h1.1)
          (by rw [← heq] at h1; exact h1.2) s.length s (Nat.le_refl _)
      exact applyPatterns_keeps_absence (tokenOf_ne_nil ki) rest _
        (fun kv' hkv' => hv kv' (List.mem_cons_of_mem kv hkv')) hstep
    · rw [applyPatterns_cons]
      exact ih _ hrest (fun kv' hkv' => hv kv' (List.mem_cons_of_mem kv hkv'))

/-- If `tokenOf ki` occurs in `s`, the value `vi` occurs after the whole
multi-key pass, provided every other token does not overlap `tokenOf ki`
and `vi` shares no character with any token. -/
theorem applyPatterns_inserts_value {ki vi : Str} :
    ∀ kvs s, (ki, vi) ∈ kvs →
      (∀ kv ∈ kvs, kv = (ki, vi) ∨ NoOverlap (tokenOf kv.1) (tokenOf ki)) →
      (∀ kv ∈ kvs, ∀ c ∈ vi, c ∉ tokenOf kv.1) →
      tokenOf ki <:+: s → vi <:+: applyPatterns kvs s := by
  intro kvs
  induction kvs with
  | nil => intro s h; simp at h
  | cons kv rest ih =>
    intro s hmem hov hvd hocc
    rw [applyPatterns_cons]
    by_cases heq : kv = (ki, vi)
    · have hstep : vi <:+: replaceAll (tokenOf kv.1) kv.2 s := by
        rw [heq]
        exact val_occurs_replaceAll (tokenOf_ne_nil ki) s.length s (Nat.le_refl _) hocc
      exact applyPatterns_keeps_occurrence rest _
        (fun kv' hkv' => hvd kv' (List.mem_cons_of_mem kv hkv')) hstep
    · have hno : NoOverlap (tokenOf kv.1) (tokenOf ki) := by
        rcases hov kv (List.mem_cons_self kv rest) with h | h
        · exact absurd h heq
        · exact h
      have hstep : tokenOf ki <:+: replaceAll (tokenOf kv.1) kv.2 s :=
        infix_replaceAll_protected hno.1 hno.2.1 hno.2.2.1 hno.2.2.2
          s.length s (Nat.le_refl _) hocc
      have hrest : (ki, vi) ∈ rest := by
        rcases List.mem_cons.mp hmem with h | h
        · exact absurd h.symm heq
        · exact h
      exact ih _ hrest (fun kv' hkv' => hov kv' (List.mem_cons_of_mem kv hkv'))
        (fun kv' hkv' => hvd kv' (List.mem_cons_of_mem kv hkv')) hstep

/-- A suffix which is a prefix-piece of `tokenOf ki` survives the multi-key
pass, unless the pass for `ki` itself fires, in which case `vi` occurs. -/
theorem applyPatterns_protects_suffix {ki vi P : Str} (hP : P <+: tokenOf ki) :
    ∀ kvs s, (∀ kv ∈ kvs, kv = (ki, vi) ∨ NoOverlap (tokenOf kv.1) (tokenOf ki)) →
      (∀ kv ∈ kvs, ∀ c ∈ vi, c ∉ tokenOf kv.1) →
      P <:+ s → P <:+ applyPatterns kvs s ∨ vi <:+: applyPatterns kvs s := by
  intro kvs
  induction kvs with
  | nil => intro s _ _ h; exact Or.inl h
  | cons kv rest ih =>
    intro s hov hvd hs
    rw [applyPatterns_cons]
    by_cases heq : kv = (ki, vi)
    · rcases replaceAll_eq_or_val s.length s (Nat.le_refl _) with hid | hval
      · rw [hid]
        exact ih _ (fun kv' hkv' => hov kv' (List.mem_cons_of_mem kv hkv'))
          (fun kv' hkv' => hvd kv' (List.mem_cons_of_mem kv hkv')) hs
      · right
        refine applyPatterns_keeps_occurrence rest _
          (fun kv' hkv' => hvd kv' (List.mem_cons_of_mem kv hkv')) ?_
        rw [heq] at hval
        rw [heq]
        exact hval
    · have hno : NoOverlap (tokenOf kv.1) (tokenOf ki) := by
        rcases hov kv (List.mem_cons_self kv rest) with h | h
        · exact absurd h heq
        · exact h
      have h1 : ¬ tokenOf kv.1 <:+: P := fun h =>
        hno.1 (h.trans hP.isInfix)
      have h2 : ∀ t, t <:+ tokenOf kv.1 → t ≠ [] → ¬ t <+: P := by
        intro t ht htne hcon
        exact hno.2.2.1 t ht htne (hcon.trans hP)
      have hstep : P <:+ replaceAll (tokenOf kv.1) kv.2 s :=
        suffix_replaceAll_protected h1 h2 s.length s (Nat.le_refl _) hs
      exact ih _ (fun kv' hkv' => hov kv' (List.mem_cons_of_mem kv hkv'))
        (fun kv' hkv' => hvd kv' (List.mem_cons_of_mem kv hkv')) hstep

/-- A prefix which is a suffix-piece of `tokenOf ki` survives the multi-key
pass, unless the pass for `ki` itself fires, in which case `vi` occurs. -/
theorem applyPatterns_protects_prefix {ki vi P : Str} (hP : P <:+ tokenOf ki) :
    ∀ kvs s, (∀ kv ∈ kvs, kv = (ki, vi) ∨ NoOverlap (tokenOf kv.1) (tokenOf ki)) →
      (∀ kv ∈ kvs, ∀ c ∈ vi, c ∉ tokenOf kv.1) →
      P <+: s → P <+: applyPatterns kvs s ∨ vi <:+: applyPatterns kvs s := by
  intro kvs
  induction kvs with
  | nil => intro s _ _ h; exact Or.inl h
  | cons kv rest ih =>
    intro s hov hvd hs
    rw [applyPatterns_cons]
    by_cases heq : kv = (ki, vi)
    · rcases replaceAll_eq_or_val s.length s (Nat.le_refl _) with hid | hval
      · rw [hid]
        exact ih _ (fun kv' hkv' => hov kv' (List.mem_cons_of_mem kv hkv'))
          (fun kv' hkv' => hvd kv' (List.mem_cons_of_mem kv hkv')) hs
      · right
        refine applyPatterns_keeps_occurrence rest _
          (fun kv' hkv' => hvd kv' (List.mem_cons_of_mem kv hkv')) ?_
        rw [heq] at hval
        rw [heq]
        exact hval
    · have hno : NoOverlap (tokenOf kv.1) (tokenOf ki) := by
        rcases hov kv (List.mem_cons_self kv rest) with h | h
        · exact absurd h heq
        · exact h
      have h1 : ¬ tokenOf kv.1 <:+: P := fun h =>
        hno.1 (h.trans hP.isInfix)
      have h2 : ∀ t, t <+: tokenOf kv.1 → t ≠ [] → ¬ t <:+ P := by
        intro t ht htne hcon
        exact hno.2.2.2 t ht htne (hcon.trans hP)
      have hstep : P <+: replaceAll (tokenOf kv.1) kv.2 s :=
        @prefix_replaceAll_protected (tokenOf kv.1) kv.2 s.length s P
          (Nat.le_refl _) h1 h2 hs
      exact ih _ (fun kv' hkv' => hov kv' (List.mem_cons_of_mem kv hkv'))
        (fun kv' hkv' => hvd kv' (List.mem_cons_of_mem kv hkv')) hstep

/-- A run that is a proper infix piece of `tokenOf ki` passes through the
multi-key pass unchanged. -/
theorem applyPatterns_id_on_piece {ki vi r : Str} (hr : r <:+: tokenOf ki)
    (hlt : r.length < (tokenOf ki).length) :
    ∀ kvs, (∀ kv ∈ kvs, kv = (ki, vi) ∨ NoOverlap (tokenOf kv.1) (tokenOf ki)) →
      applyPatterns kvs r = r := by
  intro kvs
  induction kvs with
  | nil => intro _; rfl
  | cons kv rest ih =>
    intro hov
    rw [applyPatterns_cons]
    have hno : ¬ tokenOf kv.1 <:+: r := by
      rcases hov kv (List.mem_cons_self kv rest) with heq | hno
      · intro hocc
        rw [heq] at hocc
        have h : (tokenOf ki).length ≤ r.length := by
          simpa using hocc.length_le
        omega
      · exact fun hocc => hno.1 (hocc.trans hr)
    rw [replaceAll_of_not_occurs r.length r (Nat.le_refl _) hno]
    exact ih (fun kv' hkv' => hov kv' (List.mem_cons_of_mem kv hkv'))

/-! ### The run-boundary lemma.

If `tokenOf ki` occurs in the concatenated text of a list of runs, then
after the run-level pass (`applyPatterns` applied to each run separately)
either the token still occurs in the concatenation, or the value `vi` has
already been substituted into some run. -/

/-- Bundle of side conditions for the three-pass substitution used below. -/
def GoodKvs (kvs : List (Str × Str)) (ki vi : Str) : Prop :=
  (ki, vi) ∈ kvs ∧
    (∀ kv ∈ kvs, kv = (ki, vi) ∨ NoOverlap (tokenOf kv.1) (tokenOf ki)) ∧
    (∀ kv ∈ kvs, ∀ c ∈ vi, c ∉ tokenOf kv.1) ∧
    (∀ kv ∈ kvs, kv.2 ≠ [] ∧ ∀ c ∈ kv.2, c ∉ tokenOf ki)

theorem span_prefix_runs {ki vi : Str} {kvs : List (Str × Str)}
    (hg : GoodKvs kvs ki vi) :
    ∀ rs : List Str, ∀ t₂ : Str, t₂ <:+ tokenOf ki →
      t₂.length < (tokenOf ki).length → t₂ ≠ [] →
      t₂ <+: rs.flatten →
      t₂ <+: (rs.map (applyPatterns kvs)).flatten ∨
        vi <:+: (rs.map (applyPatterns kvs)).flatten := by
  intro rs
  induction rs with
  | nil =>
    intro t₂ _ _ ht₂ne hp
    simp only [List.flatten_nil] at hp
    exact absurd (List.prefix_nil.mp hp) ht₂ne
  | cons r rest ih =>
    intro t₂ ht₂tok ht₂lt ht₂ne hp
    simp only [List.flatten_cons] at hp
    simp only [List.map_cons, List.flatten_cons]
    rcases prefix_append_split hp with hin | ⟨t₃, ht₂eq, ht₃⟩
    · -- t₂ lies inside the first run
      rcases applyPatterns_protects_prefix ht₂tok kvs r hg.2.1 hg.2.2.1 hin with hk | hv
      · exact Or.inl (hk.trans (List.prefix_append _ _))
      · exact Or.inr (hv.trans (List.prefix_append _ _).isInfix)
    · -- the first run lies entirely inside t₂ (hence inside the token)
      have hrpiece : r <:+: tokenOf ki := by
        have : r <+: t₂ := ⟨t₃, ht₂eq.symm⟩
        exact this.isInfix.trans ht₂tok.isInfix
      have hrlt : r.length < (tokenOf ki).length := by
        have h1 : r.length ≤ t₂.length := by
          have : r <+: t₂ := ⟨t₃, ht₂eq.symm⟩
          exact this.length_le
        omega
      have hid : applyPatterns kvs r = r :=
        applyPatterns_id_on_piece hrpiece hrlt kvs hg.2.1
      rcases eq_or_ne t₃ [] with rfl | ht₃ne
      · -- t₂ = r exactly
        rw [hid]
        left
        have : t₂ <+: r := by rw [ht₂eq]; simp
        exact this.trans (List.prefix_append _ _)
      · have ht₃tok : t₃ <:+ tokenOf ki := by
          have : t₃ <:+ t₂ := ⟨r, ht₂eq.symm⟩
          exact this.trans ht₂tok
        have ht₃lt : t₃.length < (tokenOf ki).length := by
          have : t₃.length ≤ t₂.length := by
            have h : t₃ <:+ t₂ := ⟨r, ht₂eq.symm⟩
            exact h.length_le
          omega
        rcases ih t₃ ht₃tok ht₃lt ht₃ne ht₃ with hk | hv
        · left
          rw [hid, ht₂eq]
          exact prefix_append_mono r hk
        · right
          rw [hid]
          exact hv.trans (List.suffix_append r _).isInfix

theorem span_runs {ki vi : Str} {kvs : List (Str × Str)}
    (hg : GoodKvs kvs ki vi) :
    ∀ rs : List Str, tokenOf ki <:+: rs.flatten →
      tokenOf ki <:+: (rs.map (applyPatterns kvs)).flatten ∨
        vi <:+: (rs.map (applyPatterns kvs)).flatten := by
  intro rs
  induction rs with
  | nil =>
    intro h
    simp only [List.flatten_nil] at h
    exact absurd (List.infix_nil.mp h) (tokenOf_ne_nil ki)
  | cons r rest ih =>
    intro h
    simp only [List.flatten_cons] at h
    simp only [List.map_cons, List.flatten_cons]
    rcases infix_append_split h with hinr | hinrest | ⟨t₁, t₂, ht₁ne, ht₂ne, htok, ht₁r, ht₂rest⟩
    · -- whole token inside the first run: the value is substituted there
      right
      have := applyPatterns_inserts_value kvs r hg.1 hg.2.1 hg.2.2.1 hinr
      exact this.trans (List.prefix_append _ _).isInfix
    · rcases ih hinrest with hk | hv
      · exact Or.inl (hk.trans (List.suffix_append _ _).isInfix)
      · exact Or.inr (hv.trans (List.suffix_append _ _).isInfix)
    · -- token split across the boundary of the first run
      have ht₁tok : t₁ <+: tokenOf ki := ⟨t₂, htok.symm⟩
      rcases applyPatterns_protects_suffix ht₁tok kvs r hg.2.1 hg.2.2.1 ht₁r with hk₁ | hv₁
      · have ht₂tok : t₂ <:+ tokenOf ki := ⟨t₁, htok.symm⟩
        have ht₂lt : t₂.length < (tokenOf ki).length := by
          have := congrArg List.length htok
          simp only [List.length_append] at this
          have h1 : 0 < t₁.length := List.length_pos.mpr ht₁ne
          omega
        rcases span_prefix_runs hg rest t₂ ht₂tok ht₂lt ht₂ne ht₂rest with hk₂ | hv₂
        · left
          rw [htok]
          exact append_of_suffix_prefix hk₁ hk₂
        · exact Or.inr (hv₂.trans (List.suffix_append _ _).isInfix)
      · exact Or.inr (hv₁.trans (List.prefix_append _ _).isInfix)

/-! ### The python-docx document model seen by `replace_placeholders`. -/

/-- A table cell.  `paras` are the paragraphs directly inside the cell
(python-docx `cell.paragraphs`); `nestedParas` stands for the paragraphs
of tables nested inside the cell (any depth), which python-docx exposes
only through `cell.tables` and which `replace_placeholders` and
`_iter_paragraphs` never visit. -/
structure TCell where
  paras : List Para
  nestedParas : List Para
  deriving DecidableEq

/-- A document: body paragraphs (`doc.paragraphs`) and top-level tables
(`doc.tables`), each a list of rows, each row a list of cells. -/
structure TDoc where
  paras : List Para
  tables : List (List (List TCell))
  deriving DecidableEq

/-- All cells of the top-level tables, in `_iter_paragraphs` order. -/
def tableCells (tables : List (List (List TCell))) : List TCell :=
  (tables.map List.flatten).flatten

/-- The paragraphs visited by `replace_placeholders` / `_iter_paragraphs`:
body paragraphs and the direct paragraphs of top-level table cells. -/
def shallowParas (d : TDoc) : List Para :=
  d.paras ++ ((tableCells d.tables).map TCell.paras).flatten

/-- All paragraphs of the document, including those inside nested tables. -/
def deepParas (d : TDoc) : List Para :=
  shallowParas d ++ ((tableCells d.tables).map TCell.nestedParas).flatten

/-- `T` occurs somewhere in the text of the document. -/
def docContains (T : Str) (d : TDoc) : Prop :=
  ∃ p ∈ deepParas d, T <:+: p.flatten

instance (T : Str) (d : TDoc) : Decidable (docContains T d) := by
  unfold docContains
  infer_instance

/-- The `process(paragraph)` closure of `replace_placeholders`: first the
patterns are applied to each run, then to the concatenated paragraph text;
the paragraph is collapsed to a single run only when the second pass
changes the text (the source guard `changed and new_combined != combined`
is equivalent to `new_combined != combined`, since a change of text
implies a nonzero substitution count). -/
def processParagraph (kvs : List (Str × Str)) (p : Para) : Para :=
  if applyPatterns kvs ((p.map (applyPatterns kvs)).flatten) =
      (p.map (applyPatterns kvs)).flatten
  then p.map (applyPatterns kvs)
  else [applyPatterns kvs ((p.map (applyPatterns kvs)).flatten)]

/-- `replace_placeholders(doc, values)`: process every body paragraph and
every direct paragraph of every top-level table cell.  Paragraphs inside
nested tables are not visited (python-docx `doc.tables` lists only
top-level tables and `cell.paragraphs` only direct paragraphs). -/
def replacePlaceholders (kvs : List (Str × Str)) (d : TDoc) : TDoc :=
  { paras := d.paras.map (processParagraph kvs),
    tables := d.tables.map (List.map (List.map
      (fun c => { c with paras := c.paras.map (processParagraph kvs) }))) }

theorem processParagraph_text (kvs : List (Str × Str)) (p : Para) :
    (processParagraph kvs p).flatten =
      applyPatterns kvs ((p.map (applyPatterns kvs)).flatten) := by
  by_cases h : applyPatterns kvs ((p.map (applyPatterns kvs)).flatten) =
      (p.map (applyPatterns kvs)).flatten
  · rw [processParagraph, if_pos h]
    exact h.symm
  · rw [processParagraph, if_neg h]
    simp

theorem tableCells_map (f : TCell → TCell) (tables : List (List (List TCell))) :
    tableCells (tables.map (List.map (List.map f))) = (tableCells tables).map f := by
  simp [tableCells, List.map_flatten, List.map_map, Function.comp_def]

theorem shallowParas_replace (kvs : List (Str × Str)) (d : TDoc) :
    shallowParas (replacePlaceholders kvs d) =
      (shallowParas d).map (processParagraph kvs) := by
  unfold shallowParas replacePlaceholders
  simp [tableCells_map, List.map_append, List.map_map, List.map_flatten,
    Function.comp_def]

theorem nestedParas_replace (kvs : List (Str × Str)) (d : TDoc) :
    (tableCells (replacePlaceholders kvs d).tables).map TCell.nestedParas =
      (tableCells d.tables).map TCell.nestedParas := by
  unfold replacePlaceholders
  simp only [tableCells_map, List.map_map]
  rfl

theorem deepParas_replace_of_no_nested (kvs : List (Str × Str)) (d : TDoc)
    (hnest : ∀ c ∈ tableCells d.tables, c.nestedParas = []) :
    deepParas (replacePlaceholders kvs d) =
      (shallowParas d).map (processParagraph kvs) := by
  unfold deepParas
  rw [shallowParas_replace, nestedParas_replace]
  have hnil : ((tableCells d.tables).map TCell.nestedParas).flatten = [] := by
    rw [List.flatten_eq_nil_iff]
    intro l hl
    obtain ⟨c, hc, rfl⟩ := List.mem_map.mp hl
    exact hnest c hc
  rw [hnil, List.append_nil]

/-- The mapping built by `generate_report`:
`{key: fields.get(key, "") for key in PLACEHOLDER_KEYS}`, in dict order. -/
def theKvs (v1 v2 v3 : Str) : List (Str × Str) :=
  [(keyCustomer, v1), (keyIndustry, v2), (keyAddress, v3)]

/-- The substituted values are nonempty and share no character with any of
the three placeholder tokens (in particular they contain no brace and no
character of another key). -/
def HygienicValues (v1 v2 v3 : Str) : Prop :=
  (v1 ≠ [] ∧ v2 ≠ [] ∧ v3 ≠ []) ∧
    ∀ v ∈ [v1, v2, v3], ∀ c ∈ v,
      c ∉ tokenOf keyCustomer ∧ c ∉ tokenOf keyIndustry ∧ c ∉ tokenOf keyAddress

instance (v1 v2 v3 : Str) : Decidable (HygienicValues v1 v2 v3) := by
  unfold HygienicValues
  infer_instance

theorem goodKvs_customer {v1 v2 v3 : Str} (hv : HygienicValues v1 v2 v3) :
    GoodKvs (theKvs v1 v2 v3) keyCustomer v1 := by
  refine ⟨by simp [theKvs], ?_, ?_, ?_⟩
  · intro kv hkv
    simp only [theKvs, List.mem_cons, List.not_mem_nil, or_false] at hkv
    rcases hkv with rfl | rfl | rfl
    · exact Or.inl rfl
    · exact Or.inr noOverlap_21
    · exact Or.inr noOverlap_31
  · intro kv hkv c hc
    have h := hv.2 v1 (by simp) c hc
    simp only [theKvs, List.mem_cons, List.not_mem_nil, or_false] at hkv
    rcases hkv with rfl | rfl | rfl
    · exact h.1
    · exact h.2.1
    · exact h.2.2
  · intro kv hkv
    simp only [theKvs, List.mem_cons, List.not_mem_nil, or_false] at hkv
    rcases hkv with rfl | rfl | rfl
    · exact ⟨hv.1.1, fun c hc => (hv.2 v1 (by simp) c hc).1⟩
    · exact ⟨hv.1.2.1, fun c hc => (hv.2 v2 (by simp) c hc).1⟩
    · exact ⟨hv.1.2.2, fun c hc => (hv.2 v3 (by simp) c hc).1⟩

theorem goodKvs_industry {v1 v2 v3 : Str} (hv : HygienicValues v1 v2 v3) :
    GoodKvs (theKvs v1 v2 v3) keyIndustry v2 := by
  refine ⟨by simp [theKvs], ?_, ?_, ?_⟩
  · intro kv hkv
    simp only [theKvs, List.mem_cons, List.not_mem_nil, or_false] at hkv
    rcases hkv with rfl | rfl | rfl
    · exact Or.inr noOverlap_12
    · exact Or.inl rfl
    · exact Or.inr noOverlap_32
  · intro kv hkv c hc
    have h := hv.2 v2 (by simp) c hc
    simp only [theKvs, List.mem_cons, List.not_mem_nil, or_false] at hkv
    rcases hkv with rfl | rfl | rfl
    · exact h.1
    · exact h.2.1
    · exact h.2.2
  · intro kv hkv
    simp only [theKvs, List.mem_cons, List.not_mem_nil, or_false] at hkv
    rcases hkv with rfl | rfl | rfl
    · exact ⟨hv.1.1, fun c hc => (hv.2 v1 (by simp) c hc).2.1⟩
    · exact ⟨hv.1.2.1, fun c hc => (hv.2 v2 (by simp) c hc).2.1⟩
    · exact ⟨hv.1.2.2, fun c hc => (hv.2 v3 (by simp) c hc).2.1⟩

theorem goodKvs_address {v1 v2 v3 : Str} (hv : HygienicValues v1 v2 v3) :
    GoodKvs (theKvs v1 v2 v3) keyAddress v3 := by
  refine ⟨by simp [theKvs], ?_, ?_, ?_⟩
  · intro kv hkv
    simp only [theKvs, List.mem_cons, List.not_mem_nil, or_false] at hkv
    rcases hkv with rfl | rfl | rfl
    · exact Or.inr noOverlap_13
    · exact Or.inr noOverlap_23
    · exact Or.inl rfl
  · intro kv hkv c hc
    have h := hv.2 v3 (by simp) c hc
    simp only [theKvs, List.mem_cons, List.not_mem_nil, or_false] at hkv
    rcases hkv with rfl | rfl | rfl
    · exact h.1
    · exact h.2.1
    · exact h.2.2
  · intro kv hkv
    simp only [theKvs, List.mem_cons, List.not_mem_nil, or_false] at hkv
    rcases hkv with rfl | rfl | rfl
    · exact ⟨hv.1.1, fun c hc => (hv.2 v1 (by simp) c hc).2.2⟩
    · exact ⟨hv.1.2.1, fun c hc => (hv.2 v2 (by simp) c hc).2.2⟩
    · exact ⟨hv.1.2.2, fun c hc => (hv.2 v3 (by simp) c hc).2.2⟩

theorem processParagraph_no_token {ki vi : Str} {kvs : List (Str × Str)}
    (hg : GoodKvs kvs ki vi) (p : Para) :
    ¬ tokenOf ki <:+: (processParagraph kvs p).flatten := by
  rw [processParagraph_text]
  exact applyPatterns_removes_token kvs _ hg.1 hg.2.2.2

theorem processParagraph_value {ki vi : Str} {kvs : List (Str × Str)}
    (hg : GoodKvs kvs ki vi) (p : Para)
    (h : tokenOf ki <:+: p.flatten) : vi <:+: (processParagraph kvs p).flatten := by
  rw [processParagraph_text]
  rcases span_runs hg p h with hk | hval
  · exact applyPatterns_inserts_value kvs _ hg.1 hg.2.1 hg.2.2.1 hk
  · exact applyPatterns_keeps_occurrence kvs _ hg.2.2.1 hval

/-- C1 (amended): for a template whose tables contain no nested tables, in
which each required token occurs at least once in a visited paragraph
(body paragraphs and direct table-cell paragraphs), and with nonempty
values sharing no character with any token syntax, `replace_placeholders`
leaves zero occurrences of the three tokens anywhere in the document and
each value occurs at least once.  Substitution is attempted first within
individual runs, then against the concatenated paragraph text, as
`processParagraph` shows. -/
theorem replace_placeholders_complete (d : TDoc) (v1 v2 v3 : Str)
    (hnest : ∀ c ∈ tableCells d.tables, c.nestedParas = [])
    (hv : HygienicValues v1 v2 v3)
    (hocc : ∀ tk ∈ [tokenOf keyCustomer, tokenOf keyIndustry, tokenOf keyAddress],
        ∃ p ∈ shallowParas d, tk <:+: p.flatten) :
    (∀ tk ∈ [tokenOf keyCustomer, tokenOf keyIndustry, tokenOf keyAddress],
        ¬ docContains tk (replacePlaceholders (theKvs v1 v2 v3) d)) ∧
    (∀ v ∈ [v1, v2, v3], docContains v (replacePlaceholders (theKvs v1 v2 v3) d)) := by
  have hdeep := deepParas_replace_of_no_nested (theKvs v1 v2 v3) d hnest
  constructor
  · rintro tk htk ⟨p, hp, hocc'⟩
    rw [hdeep] at hp
    obtain ⟨q, _, rfl⟩ := List.mem_map.mp hp
    simp only [List.mem_cons, List.not_mem_nil, or_false] at htk
    rcases htk with rfl | rfl | rfl
    · exact processParagraph_no_token (goodKvs_customer hv) q hocc'
    · exact processParagraph_no_token (goodKvs_industry hv) q hocc'
    · exact processParagraph_no_token (goodKvs_address hv) q hocc'
  · intro v hvmem
    simp only [List.mem_cons, List.not_mem_nil, or_false] at hvmem
    rcases hvmem with rfl | rfl | rfl
    · obtain ⟨p, hp, htokp⟩ := hocc (tokenOf keyCustomer) (by simp)
      refine ⟨processParagraph (theKvs v v2 v3) p, ?_, ?_⟩
      · rw [hdeep]; exact List.mem_map_of_mem _ hp
      · exact processParagraph_value (goodKvs_customer hv) p htokp
    · obtain ⟨p, hp, htokp⟩ := hocc (tokenOf keyIndustry) (by simp)
      refine ⟨processParagraph (theKvs v1 v v3) p, ?_, ?_⟩
      · rw [hdeep]; exact List.mem_map_of_mem _ hp
      · exact processParagraph_value (goodKvs_industry hv) p htokp
    · obtain ⟨p, hp, htokp⟩ := hocc (tokenOf keyAddress) (by simp)
      refine ⟨processParagraph (theKvs v1 v2 v) p, ?_, ?_⟩
      · rw [hdeep]; exact List.mem_map_of_mem _ hp
      · exact processParagraph_value (goodKvs_address hv) p htokp

/-- A template containing `{{客户名称}}` only inside a table nested in a
cell of a top-level table, and the other two tokens in body paragraphs. -/
def exDocC1 : TDoc :=
  { paras := [[tokenOf keyIndustry], [tokenOf keyAddress]],
    tables := [[[⟨[], [[tokenOf keyCustomer]]⟩]]] }

/-- C1 counterexample: in `exDocC1` every required token occurs at least
once (the customer token inside a nested table), the values are ordinary
nonempty strings, and yet after `replace_placeholders` the customer token
still occurs in the document: the source only visits top-level tables. -/
theorem replace_placeholders_nested_counterexample :
    (∀ tk ∈ [tokenOf keyCustomer, tokenOf keyIndustry, tokenOf keyAddress],
        docContains tk exDocC1) ∧
    HygienicValues ['甲'] ['乙'] ['丙'] ∧
    docContains (tokenOf keyCustomer)
      (replacePlaceholders (theKvs ['甲'] ['乙'] ['丙']) exDocC1) := by
  decide

/-- A depth-one template with all three tokens in body paragraphs. -/
def exDocC1W : TDoc :=
  { paras := [['文' :: tokenOf keyCustomer], [tokenOf keyIndustry], [tokenOf keyAddress]],
    tables := [] }

theorem replace_placeholders_complete_witness :
    HygienicValues ['甲'] ['乙'] ['丙'] ∧
    ((∀ tk ∈ [tokenOf keyCustomer, tokenOf keyIndustry, tokenOf keyAddress],
        ¬ docContains tk (replacePlaceholders (theKvs ['甲'] ['乙'] ['丙']) exDocC1W)) ∧
      (∀ v ∈ [['甲'], ['乙'], ['丙']],
        docContains v (replacePlaceholders (theKvs ['甲'] ['乙'] ['丙']) exDocC1W))) :=
  ⟨by decide, replace_placeholders_complete exDocC1W ['甲'] ['乙'] ['丙']
    (by decide) (by decide) (by decide)⟩

/-! ### `inspect_template_placeholders` and the `generate_report` validation. -/

/-- `countOcc` is zero exactly when the token does not occur. -/
theorem countOcc_eq_zero {tok : Str} (htok : tok ≠ []) :
    ∀ n s, s.length ≤ n → (countOcc tok s = 0 ↔ ¬ tok <:+: s) := by
  intro n
  induction n with
  | zero =>
    intro s h
    have := List.length_eq_zero.mp (Nat.le_zero.mp h)
    subst this
    simp [countOcc_nil, List.infix_nil, htok]
  | succ n ih =>
    intro s hlen
    cases s with
    | nil => simp [countOcc_nil, List.infix_nil, htok]
    | cons c cs =>
      by_cases hm : tok <+: c :: cs
      · rw [countOcc_cons_pos htok hm]
        constructor
        · intro h; omega
        · intro h; exact absurd hm.isInfix h
      · rw [countOcc_cons_neg (fun h => hm h.2)]
        rw [ih cs (by simp at hlen; omega)]
        constructor
        · intro h hocc
          rcases List.infix_cons_iff.mp hocc with hp | hi
          · exact hm hp
          · exact h hi
        · intro h hocc
          exact h (hocc.trans (List.suffix_cons c cs).isInfix)

/-- Per-key hit count of `inspect_template_placeholders`: the sum over all
paragraphs visited by `_iter_paragraphs` (body paragraphs and direct
paragraphs of top-level table cells) of the number of matches of
`{{key}}` in the paragraph text (`len(pattern.findall(text))`). -/
def inspectStats (d : TDoc) (k : Str) : Nat :=
  ((shallowParas d).map (fun p => countOcc (tokenOf k) p.flatten)).sum

theorem inspectStats_eq_zero (d : TDoc) (k : Str) :
    inspectStats d k = 0 ↔ ∀ p ∈ shallowParas d, ¬ tokenOf k <:+: p.flatten := by
  unfold inspectStats
  rw [List.sum_eq_zero_iff]
  constructor
  · intro h p hp
    have := h (countOcc (tokenOf k) p.flatten) (List.mem_map_of_mem _ hp)
    exact (countOcc_eq_zero (tokenOf_ne_nil k) p.flatten.length p.flatten
      (Nat.le_refl _)).mp this
  · intro h x hx
    obtain ⟨p, hp, rfl⟩ := List.mem_map.mp hx
    exact (countOcc_eq_zero (tokenOf_ne_nil k) p.flatten.length p.flatten
      (Nat.le_refl _)).mpr (h p hp)

/-- The keys reported missing by `generate_report`:
`[key for key, count in stats.items() if count == 0]` in dict order. -/
def missingKeys (d : TDoc) : List Str :=
  PLACEHOLDER_KEYS.filter (fun k => inspectStats d k == 0)

/-- `generate_report` up to the substitution step: validate the template
with the read-only `inspect_template_placeholders` pass and raise
(`ValueError` listing the missing keys) before the template is opened for
mutation; otherwise substitute the three fields.  Photo insertion and the
file save happen after substitution on the success path and are modelled
separately (`insertPhotos`); on the error path no output document exists. -/
def generateReport (d : TDoc) (v1 v2 v3 : Str) : Except (List Str) TDoc :=
  if missingKeys d = [] then
    .ok (replacePlaceholders (theKvs v1 v2 v3) d)
  else
    .error (missingKeys d)

/-- C2: whenever at least one required key has zero token occurrences in
the (read-only) inspection pass, `generate_report` raises before any
output document is produced, and the reported keys are exactly the
required keys with zero occurrences in the template. -/
theorem generate_report_missing_keys (d : TDoc) (v1 v2 v3 : Str)
    (hmiss : ∃ k ∈ PLACEHOLDER_KEYS, inspectStats d k = 0) :
    generateReport d v1 v2 v3 = .error (missingKeys d) ∧
    (∀ k, k ∈ missingKeys d ↔ k ∈ PLACEHOLDER_KEYS ∧ inspectStats d k = 0) ∧
    (∀ k, inspectStats d k = 0 ↔ ∀ p ∈ shallowParas d, ¬ tokenOf k <:+: p.flatten) := by
  obtain ⟨k, hk, h0⟩ := hmiss
  have hmem : k ∈ missingKeys d := by
    unfold missingKeys
    rw [List.mem_filter]
    exact ⟨hk, by simpa using h0⟩
  have hne : missingKeys d ≠ [] := List.ne_nil_of_mem hmem
  refine ⟨?_, ?_, fun k' => inspectStats_eq_zero d k'⟩
  · unfold generateReport
    rw [if_neg hne]
  · intro k'
    unfold missingKeys
    rw [List.mem_filter]
    simp

/-- A template with the industry token absent. -/
def exDocC2 : TDoc :=
  { paras := [[tokenOf keyCustomer ++ tokenOf keyAddress]], tables := [] }

theorem generate_report_missing_keys_witness :
    (inspectStats exDocC2 keyIndustry = 0 ∧ missingKeys exDocC2 = [keyIndustry]) ∧
    generateReport exDocC2 ['甲'] ['乙'] ['丙'] = .error (missingKeys exDocC2) :=
  ⟨by decide,
    (generate_report_missing_keys exDocC2 ['甲'] ['乙'] ['丙']
      ⟨keyIndustry, by decide, by decide⟩).1⟩

/-! ### `insert_photos`: photo batching and insertion (claims C3, C4).

The body of the document is modelled as the ordered list of elements the
code manipulates: template paragraphs, inserted photo tables (recorded by
their row count) and inserted page-break paragraphs.  The anchor search
of `_find_photo_anchor` walks the paragraphs in body order. -/

inductive BodyEl where
  | para (runs : Para)
  | photoTable (rows : Nat)
  | pageBreak
  deriving DecidableEq

abbrev Body := List BodyEl

/-- `PHOTO_TOKENS = ("{{走访照片}}", "{{照片}}", "{{照片区}}")`. -/
def PHOTO_TOKENS : List Str :=
  [tokenOf ['走', '访', '照', '片'], tokenOf ['照', '片'], tokenOf ['照', '片', '区']]

/-- `PHOTO_SECTION_KEYWORDS = ("上门核实图片",)`. -/
def PHOTO_SECTION_KEYWORDS : List Str := [['上', '门', '核', '实', '图', '片']]

/-- Python `str.strip()` (whitespace trim, both ends). -/
def trimWS (s : Str) : Str :=
  (((s.dropWhile Char.isWhitespace).reverse).dropWhile Char.isWhitespace).reverse

def elIsPara : BodyEl → Bool
  | .para _ => true
  | _ => false

def elText : BodyEl → Str
  | .para runs => runs.flatten
  | _ => []

/-- Anchor predicate of the first `_find_photo_anchor` pass: the paragraph
text contains some photo token. -/
def hasPhotoToken (e : BodyEl) : Bool :=
  match e with
  | .para runs => PHOTO_TOKENS.any (fun tk => decide (tk <:+: runs.flatten))
  | _ => false

/-- Anchor predicate of the second pass: nonempty stripped text containing
a section keyword. -/
def hasSectionKeyword (e : BodyEl) : Bool :=
  match e with
  | .para runs =>
      let t := trimWS runs.flatten
      !t.isEmpty && PHOTO_SECTION_KEYWORDS.any (fun kw => decide (kw <:+: t))
  | _ => false

/-- Split a body at the first element satisfying `pr`. -/
def splitFirst (pr : BodyEl → Bool) : Body → Option (Body × BodyEl × Body)
  | [] => none
  | e :: rest =>
    if pr e then some ([], e, rest)
    else (splitFirst pr rest).map (fun x => (e :: x.1, x.2.1, x.2.2))

/-- `_clear_photo_tokens(paragraph)`: for each photo token present in the
paragraph text, re-assign the text with the token removed (collapsing the
paragraph to a single run); if no token is present the paragraph is left
untouched. -/
def clearPhotoTokens (runs : Para) : Para :=
  if PHOTO_TOKENS.any (fun tk => decide (tk <:+: runs.flatten)) then
    [PHOTO_TOKENS.foldl (fun acc tk => replaceAll tk [] acc) runs.flatten]
  else runs

def clearEl : BodyEl → BodyEl
  | .para runs => .para (clearPhotoTokens runs)
  | e => e

/-- `groups = [processed[i:i+PHOTOS_PER_PAGE] ...]` with
`PHOTOS_PER_PAGE = 2`. -/
def chunks2 {α : Type} : List α → List (List α)
  | [] => []
  | [a] => [[a]]
  | a :: b :: rest => [a, b] :: chunks2 rest

/-- The elements inserted after the anchor: one single-column table per
batch (one row per photo) and a page-break paragraph between consecutive
batches, none after the last (`if idx < len(groups) - 1`). -/
def blocksOf : List (List Str) → Body
  | [] => []
  | [g] => [.photoTable g.length]
  | g :: rest => .photoTable g.length :: .pageBreak :: blocksOf rest

/-- `_find_photo_anchor` followed by `_clear_photo_tokens` and the
`addnext` chain: the blocks are spliced immediately after the anchor.  If
no paragraph matches a photo token or a section keyword, a fresh
paragraph `上门核实图片：` is appended and the blocks follow it. -/
def insertAfterAnchor (body : Body) (blocks : Body) : Body :=
  match splitFirst hasPhotoToken body with
  | some (pre, e, post) => pre ++ clearEl e :: (blocks ++ post)
  | none =>
    match splitFirst hasSectionKeyword body with
    | some (pre, e, post) => pre ++ clearEl e :: (blocks ++ post)
    | none =>
        body ++ .para [['上', '门', '核', '实', '图', '片', '：']] :: blocks

/-- `insert_photos(doc, photos, out_dir)`.  `prep` abstracts the per-photo
pipeline (existence check plus `_prepare_photo_for_word`): `none` when the
file is missing or preparation yields no usable path. -/
def insertPhotos (body : Body) (photos : List Str) (prep : Str → Option Str) : Body :=
  if photos = [] then body
  else
    let processed := photos.filterMap prep
    if processed = [] then body
    else insertAfterAnchor body (blocksOf (chunks2 processed))

/-- Row counts of the photo tables in a body. -/
def tableSizes (b : Body) : List Nat :=
  b.filterMap (fun e => match e with | .photoTable n => some n | _ => none)

/-- Number of inserted page-break paragraphs in a body. -/
def countBreaks (b : Body) : Nat :=
  b.countP (fun e => match e with | .pageBreak => true | _ => false)

theorem chunks2_sizes {α : Type} (l : List α) :
    (chunks2 l).map List.length =
      List.replicate (l.length / 2) 2 ++ (if l.length % 2 = 1 then [1] else []) := by
  induction l using chunks2.induct with
  | case1 => simp [chunks2]
  | case2 a => simp [chunks2]
  | case3 a b rest ih =>
    simp only [chunks2, List.map_cons, ih, List.length_cons]
    have h2 : (rest.length + 1 + 1) / 2 = rest.length / 2 + 1 := by omega
    have h3 : (rest.length + 1 + 1) % 2 = rest.length % 2 := by omega
    rw [h2]
    simp only [h3, List.replicate_succ]
    simp

theorem chunks2_ne_nil {α : Type} (l : List α) (h : l ≠ []) : chunks2 l ≠ [] := by
  match l with
  | [] => exact absurd rfl h
  | [a] => simp [chunks2]
  | a :: b :: rest => simp [chunks2]

theorem blocksOf_tableSizes : ∀ gs : List (List Str),
    tableSizes (blocksOf gs) = gs.map List.length := by
  intro gs
  induction gs using blocksOf.induct with
  | case1 => rfl
  | case2 g => rfl
  | case3 g g' rest ih =>
    simp only [blocksOf, tableSizes, List.filterMap_cons] at *
    simpa using ih

theorem blocksOf_countBreaks : ∀ gs : List (List Str),
    countBreaks (blocksOf gs) = gs.length - 1 := by
  intro gs
  induction gs using blocksOf.induct with
  | case1 => rfl
  | case2 g => rfl
  | case3 g g' rest ih =>
    simp only [blocksOf, countBreaks, List.countP_cons, List.length_cons] at ih ⊢
    simp only [if_true, if_false] at ih ⊢
    simp at ih ⊢
    rw [ih]
    have hpos : 0 < g'.length := List.length_pos.mpr (fun h => rest h)
    omega

theorem splitFirst_eq (pr : BodyEl → Bool) :
    ∀ body r, splitFirst pr body = some r → body = r.1 ++ r.2.1 :: r.2.2 := by
  intro body
  induction body with
  | nil => intro r h; simp [splitFirst] at h
  | cons x rest ih =>
    intro r h
    by_cases hx : pr x
    · simp only [splitFirst, if_pos hx, Option.some_inj] at h
      subst h
      rfl
    · simp only [splitFirst, if_neg hx] at h
      cases hs : splitFirst pr rest with
      | none => rw [hs] at h; simp at h
      | some r' =>
        rw [hs] at h
        simp only [Option.map_some', Option.some_inj] at h
        subst h
        have hrest := ih r' hs
        simp only [List.cons_append, List.cons.injEq, true_and]
        exact hrest

theorem tableSizes_all_para {l : Body} (h : ∀ e ∈ l, elIsPara e = true) :
    tableSizes l = [] := by
  induction l with
  | nil => rfl
  | cons e rest ih =>
    have he := h e (List.mem_cons_self e rest)
    cases e with
    | para runs =>
      simp only [tableSizes, List.filterMap_cons]
      exact ih (fun e' he' => h e' (List.mem_cons_of_mem _ he'))
    | photoTable n => simp [elIsPara] at he
    | pageBreak => simp [elIsPara] at he

theorem countBreaks_all_para {l : Body} (h : ∀ e ∈ l, elIsPara e = true) :
    countBreaks l = 0 := by
  induction l with
  | nil => rfl
  | cons e rest ih =>
    have he := h e (List.mem_cons_self e rest)
    cases e with
    | para runs =>
      simp only [countBreaks, List.countP_cons]
      simp only [countBreaks] at ih
      rw [ih (fun e' he' => h e' (List.mem_cons_of_mem _ he'))]
      simp
    | photoTable n => simp [elIsPara] at he
    | pageBreak => simp [elIsPara] at he

theorem elIsPara_clearEl (e : BodyEl) (h : elIsPara e = true) :
    elIsPara (clearEl e) = true := by
  cases e with
  | para runs => rfl
  | photoTable n => simp [elIsPara] at h
  | pageBreak => simp [elIsPara] at h

theorem tableSizes_append (a b : Body) :
    tableSizes (a ++ b) = tableSizes a ++ tableSizes b := by
  simp [tableSizes, List.filterMap_append]

theorem countBreaks_append (a b : Body) :
    countBreaks (a ++ b) = countBreaks a + countBreaks b := by
  simp [countBreaks, List.countP_append]

/-- For an all-paragraph template body, the photo tables and page breaks
of the result of `insertAfterAnchor` are exactly those of the inserted
blocks. -/
theorem tableSizes_insertAfterAnchor (body blocks : Body)
    (hb : ∀ e ∈ body, elIsPara e = true) :
    tableSizes (insertAfterAnchor body blocks) = tableSizes blocks ∧
      countBreaks (insertAfterAnchor body blocks) = countBreaks blocks := by
  unfold insertAfterAnchor
  cases h1 : splitFirst hasPhotoToken body with
  | some r =>
    obtain ⟨pre, e, post⟩ := r
    have hdec := splitFirst_eq hasPhotoToken body _ h1
    simp only at hdec
    have hpre : ∀ x ∈ pre, elIsPara x = true := by
      intro x hx
      exact hb x (by rw [hdec]; exact List.mem_append_left _ hx)
    have hpost : ∀ x ∈ post, elIsPara x = true := by
      intro x hx
      exact hb x (by
        rw [hdec]
        exact List.mem_append_right _ (List.mem_cons_of_mem _ hx))
    have he : elIsPara e = true :=
      hb e (by rw [hdec]; exact List.mem_append_right _ (List.mem_cons_self _ _))
    constructor
    · rw [tableSizes_append, tableSizes_all_para hpre]
      have : tableSizes (clearEl e :: (blocks ++ post)) =
          tableSizes blocks ++ tableSizes post := by
        cases hce : clearEl e with
        | para runs => simp [tableSizes, List.filterMap_cons, List.filterMap_append]
        | photoTable n =>
          have := elIsPara_clearEl e he
          rw [hce] at this
          simp [elIsPara] at this
        | pageBreak =>
          have := elIsPara_clearEl e he
          rw [hce] at this
          simp [elIsPara] at this
      rw [this, tableSizes_all_para hpost]
      simp
    · rw [countBreaks_append, countBreaks_all_para hpre]
      have : countBreaks (clearEl e :: (blocks ++ post)) =
          countBreaks blocks + countBreaks post := by
        cases hce : clearEl e with
        | para runs => simp [countBreaks, List.countP_cons, List.countP_append]
        | photoTable n =>
          have := elIsPara_clearEl e he
          rw [hce] at this
          simp [elIsPara] at this
        | pageBreak =>
          have := elIsPara_clearEl e he
          rw [hce] at this
          simp [elIsPara] at this
      rw [this, countBreaks_all_para hpost]
      simp
  | none =>
    cases h2 : splitFirst hasSectionKeyword body with
    | some r =>
      obtain ⟨pre, e, post⟩ := r
      have hdec := splitFirst_eq hasSectionKeyword body _ h2
      simp only at hdec
      have hpre : ∀ x ∈ pre, elIsPara x = true := by
        intro x hx
        exact hb x (by rw [hdec]; exact List.mem_append_left _ hx)
      have hpost : ∀ x ∈ post, elIsPara x = true := by
        intro x hx
        exact hb x (by
          rw [hdec]
          exact List.mem_append_right _ (List.mem_cons_of_mem _ hx))
      have he : elIsPara e = true :=
        hb e (by rw [hdec]; exact List.mem_append_right _ (List.mem_cons_self _ _))
      constructor
      · rw [tableSizes_append, tableSizes_all_para hpre]
        have : tableSizes (clearEl e :: (blocks ++ post)) =
            tableSizes blocks ++ tableSizes post := by
          cases hce : clearEl e with
          | para runs => simp [tableSizes, List.filterMap_cons, List.filterMap_append]
          | photoTable n =>
            have := elIsPara_clearEl e he
            rw [hce] at this
            simp [elIsPara] at this
          | pageBreak =>
            have := elIsPara_clearEl e he
            rw [hce] at this
            simp [elIsPara] at this
        rw [this, tableSizes_all_para hpost]
        simp
      · rw [countBreaks_append, countBreaks_all_para hpre]
        have : countBreaks (clearEl e :: (blocks ++ post)) =
            countBreaks blocks + countBreaks post := by
          cases hce : clearEl e with
          | para runs => simp [countBreaks, List.countP_cons, List.countP_append]
          | photoTable n =>
            have := elIsPara_clearEl e he
            rw [hce] at this
            simp [elIsPara] at this
          | pageBreak =>
            have := elIsPara_clearEl e he
            rw [hce] at this
            simp [elIsPara] at this
        rw [this, countBreaks_all_para hpost]
        simp
    | none =>
      constructor
      · rw [tableSizes_append, tableSizes_all_para hb]
        simp [tableSizes]
      · rw [countBreaks_append, countBreaks_all_para hb]
        simp [countBreaks]

/-- C3: for `N ≥ 1` successfully prepared photos inserted into an
all-paragraph template body, the inserted elements comprise exactly
`⌈N/2⌉` single-column photo tables, all of 2 rows except the last, which
has 2 rows when `N` is even and 1 row when `N` is odd, and
`⌈N/2⌉ - 1` page breaks (one between each pair of consecutive tables,
none after the last). -/
theorem insert_photos_batching (body : Body) (photos : List Str)
    (prep : Str → Option Str)
    (hb : ∀ e ∈ body, elIsPara e = true)
    (hN : 1 ≤ (photos.filterMap prep).length) :
    tableSizes (insertPhotos body photos prep) =
      List.replicate (((photos.filterMap prep).length + 1) / 2 - 1) 2 ++
        [if (photos.filterMap prep).length % 2 = 0 then 2 else 1] ∧
    (tableSizes (insertPhotos body photos prep)).length =
      ((photos.filterMap prep).length + 1) / 2 ∧
    countBreaks (insertPhotos body photos prep) =
      ((photos.filterMap prep).length + 1) / 2 - 1 := by
  have hphotos : photos ≠ [] := by
    rintro rfl
    simp at hN
  have hproc : photos.filterMap prep ≠ [] := by
    intro h
    rw [h] at hN
    simp at hN
  have hout : insertPhotos body photos prep =
      insertAfterAnchor body (blocksOf (chunks2 (photos.filterMap prep))) := by
    unfold insertPhotos
    rw [if_neg hphotos]
    simp only [if_neg hproc]
  obtain ⟨hts, hcb⟩ :=
    tableSizes_insertAfterAnchor body (blocksOf (chunks2 (photos.filterMap prep))) hb
  rw [hout, hts, hcb, blocksOf_tableSizes, blocksOf_countBreaks, chunks2_sizes]
  set N := (photos.filterMap prep).length with hNdef
  have hN1 : 1 ≤ N := hN
  have hlen : (chunks2 (photos.filterMap prep)).length = N / 2 + N % 2 := by
    have := congrArg List.length (chunks2_sizes (photos.filterMap prep))
    simp only [List.length_map, List.length_append, List.length_replicate] at this
    rw [this, ← hNdef]
    rcases Nat.even_or_odd N with he | ho
    · have : N % 2 = 0 := Nat.even_iff.mp he
      simp [this]
    · have : N % 2 = 1 := Nat.odd_iff.mp ho
      simp [this]
  refine ⟨?_, ?_, ?_⟩
  · rcases Nat.even_or_odd N with he | ho
    · have h0 : N % 2 = 0 := Nat.even_iff.mp he
      have h21 : (N + 1) / 2 - 1 = N / 2 - 1 := by omega
      have h22 : N / 2 = (N / 2 - 1) + 1 := by omega
      rw [h0, h21, h22]
      simp only [List.replicate_succ']
      simp
    · have h1 : N % 2 = 1 := Nat.odd_iff.mp ho
      have h21 : (N + 1) / 2 - 1 = N / 2 := by omega
      rw [h1, h21]
      simp
  · simp only [List.length_map, List.length_append, List.length_replicate]
    rcases Nat.even_or_odd N with he | ho
    · have h0 : N % 2 = 0 := Nat.even_iff.mp he
      simp [h0]
      omega
    · have h1 : N % 2 = 1 := Nat.odd_iff.mp ho
      simp [h1]
      omega
  · rw [hlen]
    omega

theorem insert_photos_batching_witness :
    (((['a'] :: ['b'] :: ['c'] :: []).filterMap some).length = 3 ∧
      (∀ e ∈ [BodyEl.para [['文']]], elIsPara e = true)) ∧
    tableSizes (insertPhotos [BodyEl.para [['文']]] [['a'], ['b'], ['c']] some) =
      List.replicate (((( [['a'], ['b'], ['c']] : List Str).filterMap some).length + 1) / 2 - 1) 2 ++
        [if ((( [['a'], ['b'], ['c']] : List Str).filterMap some).length) % 2 = 0 then 2 else 1] :=
  ⟨by decide,
    (insert_photos_batching [BodyEl.para [['文']]] [['a'], ['b'], ['c']] some
      (by decide) (by decide)).1⟩

/-- C4 (amended): when no photo survives preparation (empty input list or
every photo failing preparation), `insert_photos` is a complete silent
no-op: the body — including any photo-token text in the anchor
paragraph — is returned entirely unchanged, no table is inserted, and no
error is raised.  (The token text is *not* cleared: the early return
happens before `_clear_photo_tokens` runs.) -/
theorem insert_photos_noop (body : Body) (photos : List Str)
    (prep : Str → Option Str) (h : photos.filterMap prep = []) :
    insertPhotos body photos prep = body := by
  unfold insertPhotos
  by_cases hp : photos = []
  · rw [if_pos hp]
  · rw [if_neg hp]
    simp [h]

/-- C4 counterexample: with zero photos the anchor paragraph's token text
is *not* cleared — the photo token is still present in the output
document, contradicting the claim that the token text is left cleared. -/
theorem insert_photos_token_not_cleared :
    insertPhotos [BodyEl.para [tokenOf ['走', '访', '照', '片']]] [] (fun _ => none) =
      [BodyEl.para [tokenOf ['走', '访', '照', '片']]] ∧
    (∃ e ∈ insertPhotos [BodyEl.para [tokenOf ['走', '访', '照', '片']]] [] (fun _ => none),
      hasPhotoToken e = true) := by
  decide

theorem insert_photos_noop_witness :
    ((([['p']] : List Str).filterMap (fun _ => none) = ([] : List Str)) ∧
      insertPhotos [BodyEl.para [tokenOf ['走', '访', '照', '片']]] [['p']] (fun _ => none) =
        [BodyEl.para [tokenOf ['走', '访', '照', '片']]]) :=
  ⟨by decide,
    insert_photos_noop [BodyEl.para [tokenOf ['走', '访', '照', '片']]] [['p']]
      (fun _ => none) (by decide)⟩

/-! ### `_letterbox_image` (claims C5, C6).

`CANVAS_SIZE = (2200, 1650)`, `CANVAS_MARGIN = 80`.  Python float
arithmetic is modelled with exact rationals; `int()` on the nonnegative
products is the floor. -/

def CANVAS_W : Nat := 2200
def CANVAS_H : Nat := 1650
def CANVAS_MARGIN : Nat := 80

/-- `target_w = max(size[0] - margin * 2, 1)` (= 2040). -/
def targetW : Nat := max (CANVAS_W - CANVAS_MARGIN * 2) 1

/-- `target_h = max(size[1] - margin * 2, 1)` (= 1490). -/
def targetH : Nat := max (CANVAS_H - CANVAS_MARGIN * 2) 1

/-- `scale = min(target_w / img.width, target_h / img.height, 1.0)`. -/
def letterboxScale (w h : Nat) : ℚ :=
  min ((targetW : ℚ) / w) (min ((targetH : ℚ) / h) 1)

/-- `resized = img.resize((int(img.width * scale), int(img.height * scale)))`. -/
def letterboxResized (w h : Nat) : Nat × Nat :=
  ((⌊(w : ℚ) * letterboxScale w h⌋).toNat, (⌊(h : ℚ) * letterboxScale w h⌋).toNat)

/-- `offset = ((size[0] - resized.width) // 2, (size[1] - resized.height) // 2)`:
the left and top border widths of the pasted image. -/
def letterboxOffset (w h : Nat) : Nat × Nat :=
  ((CANVAS_W - (letterboxResized w h).1) / 2, (CANVAS_H - (letterboxResized w h).2) / 2)

theorem letterboxScale_nonneg (w h : Nat) : 0 ≤ letterboxScale w h := by
  unfold letterboxScale
  have h1 : (0 : ℚ) ≤ (targetW : ℚ) / w := by positivity
  have h2 : (0 : ℚ) ≤ (targetH : ℚ) / h := by positivity
  have h3 : (0 : ℚ) ≤ 1 := by norm_num
  exact le_min h1 (le_min h2 h3)

theorem letterboxScale_le_one (w h : Nat) : letterboxScale w h ≤ 1 :=
  le_trans (min_le_right _ _) (min_le_right _ _)

/-- C6: the letterbox scale factor is exactly
`min(available_w / w, available_h / h, 1.0)` with
`available = canvas − 2·margin = (2040, 1490)`; consequently the resized
dimensions never exceed the originals (no upscaling) and the aspect ratio
is preserved up to the integer truncation of `int()`. -/
theorem letterbox_scale_spec (w h : Nat) (hw : 0 < w) (hh : 0 < h) :
    letterboxScale w h = min ((2040 : ℚ) / w) (min ((1490 : ℚ) / h) 1) ∧
    (letterboxResized w h).1 ≤ w ∧ (letterboxResized w h).2 ≤ h ∧
    (((letterboxResized w h).1 : ℤ) * h - ((letterboxResized w h).2 : ℤ) * w < w) ∧
    (((letterboxResized w h).2 : ℤ) * w - ((letterboxResized w h).1 : ℤ) * h < h) := by
  have hW : (targetW : ℚ) = 2040 := by norm_num [targetW, CANVAS_W, CANVAS_MARGIN]
  have hH : (targetH : ℚ) = 1490 := by norm_num [targetH, CANVAS_H, CANVAS_MARGIN]
  have hs1 : letterboxScale w h ≤ 1 := letterboxScale_le_one w h
  have hs0 : 0 ≤ letterboxScale w h := letterboxScale_nonneg w h
  set s := letterboxScale w h with hsdef
  have hwq : (0 : ℚ) < w := by exact_mod_cast hw
  have hhq : (0 : ℚ) < h := by exact_mod_cast hh
  -- floor bounds for the two resized dimensions
  have hfw0 : (0 : ℚ) ≤ (w : ℚ) * s := mul_nonneg (le_of_lt hwq) hs0
  have hfh0 : (0 : ℚ) ≤ (h : ℚ) * s := mul_nonneg (le_of_lt hhq) hs0
  have hcastw : ((⌊(w : ℚ) * s⌋.toNat : ℕ) : ℚ) = ((⌊(w : ℚ) * s⌋ : ℤ) : ℚ) := by
    exact_mod_cast Int.toNat_of_nonneg (Int.floor_nonneg.mpr hfw0)
  have hcasth : ((⌊(h : ℚ) * s⌋.toNat : ℕ) : ℚ) = ((⌊(h : ℚ) * s⌋ : ℤ) : ℚ) := by
    exact_mod_cast Int.toNat_of_nonneg (Int.floor_nonneg.mpr hfh0)
  have hrw : ((letterboxResized w h).1 : ℚ) ≤ (w : ℚ) * s := by
    unfold letterboxResized
    simp only [← hsdef]
    rw [hcastw]
    exact Int.floor_le ((w : ℚ) * s)
  have hrw' : (w : ℚ) * s < ((letterboxResized w h).1 : ℚ) + 1 := by
    unfold letterboxResized
    simp only [← hsdef]
    rw [hcastw]
    exact Int.lt_floor_add_one ((w : ℚ) * s)
  have hrh : ((letterboxResized w h).2 : ℚ) ≤ (h : ℚ) * s := by
    unfold letterboxResized
    simp only [← hsdef]
    rw [hcasth]
    exact Int.floor_le ((h : ℚ) * s)
  have hrh' : (h : ℚ) * s < ((letterboxResized w h).2 : ℚ) + 1 := by
    unfold letterboxResized
    simp only [← hsdef]
    rw [hcasth]
    exact Int.lt_floor_add_one ((h : ℚ) * s)
  refine ⟨?_, ?_, ?_, ?_, ?_⟩
  · rw [hsdef]
    unfold letterboxScale
    rw [hW, hH]
  · have : ((letterboxResized w h).1 : ℚ) ≤ (w : ℚ) := by
      calc ((letterboxResized w h).1 : ℚ) ≤ (w : ℚ) * s := hrw
        _ ≤ (w : ℚ) * 1 := by
            exact mul_le_mul_of_nonneg_left hs1 (le_of_lt hwq)
        _ = (w : ℚ) := mul_one _
    exact_mod_cast this
  · have : ((letterboxResized w h).2 : ℚ) ≤ (h : ℚ) := by
      calc ((letterboxResized w h).2 : ℚ) ≤ (h : ℚ) * s := hrh
        _ ≤ (h : ℚ) * 1 := by
            exact mul_le_mul_of_nonneg_left hs1 (le_of_lt hhq)
        _ = (h : ℚ) := mul_one _
    exact_mod_cast this
  · have hq : ((letterboxResized w h).1 : ℚ) * h - ((letterboxResized w h).2 : ℚ) * w
        < w := by
      nlinarith [mul_le_mul_of_nonneg_right hrw (le_of_lt hhq),
        mul_lt_mul_of_pos_right hrh' hwq]
    exact_mod_cast hq
  · have hq : ((letterboxResized w h).2 : ℚ) * w - ((letterboxResized w h).1 : ℚ) * h
        < h := by
      nlinarith [mul_le_mul_of_nonneg_right hrh (le_of_lt hwq),
        mul_lt_mul_of_pos_right hrw' hhq]
    exact_mod_cast hq

theorem letterbox_scale_spec_witness :
    ((0 : Nat) < 400 ∧ (0 : Nat) < 300) ∧
    ((letterboxResized 400 300).1 ≤ 400 ∧ (letterboxResized 400 300).2 ≤ 300) :=
  ⟨⟨by decide, by decide⟩,
    ⟨(letterbox_scale_spec 400 300 (by decide) (by decide)).2.1,
     (letterbox_scale_spec 400 300 (by decide) (by decide)).2.2.1⟩⟩

/-- C5 counterexample: the 400×300 image has exactly the canvas aspect
ratio (4:3), is not cropped, and yet its horizontal border (900 px) is
not equal to its vertical border (675 px): the margin-reduced available
box (2040×1490) has a different aspect ratio than the canvas, and small
images are never upscaled. -/
theorem letterbox_equal_borders_counterexample :
    400 * CANVAS_H = 300 * CANVAS_W ∧
    letterboxOffset 400 300 = (900, 675) ∧
    (letterboxOffset 400 300).1 ≠ (letterboxOffset 400 300).2 := by
  have hW : (targetW : ℚ) = 2040 := by norm_num [targetW, CANVAS_W, CANVAS_MARGIN]
  have hH : (targetH : ℚ) = 1490 := by norm_num [targetH, CANVAS_H, CANVAS_MARGIN]
  have hscale : letterboxScale 400 300 = 1 := by
    unfold letterboxScale
    rw [hW, hH]
    push_cast
    rw [min_eq_right (by norm_num : (1 : ℚ) ≤ 1490 / 300)]
    exact min_eq_right (by norm_num)
  have hres : letterboxResized 400 300 = (400, 300) := by
    unfold letterboxResized
    rw [hscale]
    norm_num
    decide
  have hoff : letterboxOffset 400 300 = (900, 675) := by
    unfold letterboxOffset
    rw [hres]
    decide
  refine ⟨by decide, hoff, ?_⟩
  rw [hoff]
  decide

/-- The resized image always fits in the margin-reduced box. -/
theorem letterbox_fits (w h : Nat) (hw : 0 < w) (hh : 0 < h) :
    (letterboxResized w h).1 ≤ 2040 ∧ (letterboxResized w h).2 ≤ 1490 := by
  have hW : (targetW : ℚ) = 2040 := by norm_num [targetW, CANVAS_W, CANVAS_MARGIN]
  have hH : (targetH : ℚ) = 1490 := by norm_num [targetH, CANVAS_H, CANVAS_MARGIN]
  have hwq : (0 : ℚ) < w := by exact_mod_cast hw
  have hhq : (0 : ℚ) < h := by exact_mod_cast hh
  have hs0 : 0 ≤ letterboxScale w h := letterboxScale_nonneg w h
  set s := letterboxScale w h with hsdef
  constructor
  · have hsle : s ≤ (2040 : ℚ) / w := by
      rw [hsdef]
      unfold letterboxScale
      rw [hW]
      exact min_le_left _ _
    have hb : (w : ℚ) * s ≤ 2040 := by
      calc (w : ℚ) * s ≤ (w : ℚ) * ((2040 : ℚ) / w) :=
            mul_le_mul_of_nonneg_left hsle (le_of_lt hwq)
        _ = 2040 := by field_simp
    have : (⌊(w : ℚ) * s⌋).toNat ≤ 2040 := by
      have h1 : ⌊(w : ℚ) * s⌋ ≤ (2040 : ℤ) := by
        have := Int.floor_le_floor hb
        simpa using this
      omega
    simpa [letterboxResized, ← hsdef] using this
  · have hsle : s ≤ (1490 : ℚ) / h := by
      rw [hsdef]
      unfold letterboxScale
      rw [hH]
      exact le_trans (min_le_right _ _) (min_le_left _ _)
    have hb : (h : ℚ) * s ≤ 1490 := by
      calc (h : ℚ) * s ≤ (h : ℚ) * ((1490 : ℚ) / h) :=
            mul_le_mul_of_nonneg_left hsle (le_of_lt hhq)
        _ = 1490 := by field_simp
    have : (⌊(h : ℚ) * s⌋).toNat ≤ 1490 := by
      have h1 : ⌊(h : ℚ) * s⌋ ≤ (1490 : ℤ) := by
        have := Int.floor_le_floor hb
        simpa using this
      omega
    simpa [letterboxResized, ← hsdef] using this

/-- C5 (amended): for an image whose aspect ratio equals the canvas
aspect ratio (w : h = 2200 : 1650 = 4 : 3), `_letterbox_image` scales
without cropping — the scaled image plus its borders fits inside the
canvas and each border is at least the margin — but the padded borders
are *not* equal on both axes: the left/right border strictly exceeds the
top/bottom border, because the margin-reduced available box 2040×1490 is
wider than 4:3 and the image is never upscaled. -/
theorem letterbox_aspect_matched (w h : Nat) (hw : 0 < w) (hh : 0 < h)
    (hasp : w * CANVAS_H = h * CANVAS_W) :
    ((letterboxOffset w h).1 + (letterboxResized w h).1 ≤ CANVAS_W ∧
      (letterboxOffset w h).2 + (letterboxResized w h).2 ≤ CANVAS_H) ∧
    (CANVAS_MARGIN ≤ (letterboxOffset w h).1 ∧
      CANVAS_MARGIN ≤ (letterboxOffset w h).2) ∧
    (letterboxOffset w h).2 < (letterboxOffset w h).1 := by
  have h3w4h : 3 * w = 4 * h := by
    simp only [CANVAS_H, CANVAS_W] at hasp
    omega
  have hW : (targetW : ℚ) = 2040 := by norm_num [targetW, CANVAS_W, CANVAS_MARGIN]
  have hH : (targetH : ℚ) = 1490 := by norm_num [targetH, CANVAS_H, CANVAS_MARGIN]
  have hwq : (0 : ℚ) < w := by exact_mod_cast hw
  have hhq : (0 : ℚ) < h := by exact_mod_cast hh
  obtain ⟨hfit1, hfit2⟩ := letterbox_fits w h hw hh
  have hgen : (letterboxOffset w h).1 + (letterboxResized w h).1 ≤ CANVAS_W ∧
      (letterboxOffset w h).2 + (letterboxResized w h).2 ≤ CANVAS_H := by
    unfold letterboxOffset CANVAS_W CANVAS_H
    constructor <;> omega
  have hmargin : CANVAS_MARGIN ≤ (letterboxOffset w h).1 ∧
      CANVAS_MARGIN ≤ (letterboxOffset w h).2 := by
    unfold letterboxOffset CANVAS_W CANVAS_H CANVAS_MARGIN
    constructor <;> omega
  refine ⟨hgen, hmargin, ?_⟩
  by_cases hcase : h ≤ 1490
  · -- no scaling: scale = 1, image left at its original size
    have hwle : w ≤ 2040 := by omega
    have hscale : letterboxScale w h = 1 := by
      unfold letterboxScale
      rw [hW, hH]
      have h1 : (1 : ℚ) ≤ 2040 / w := by
        rw [le_div_iff₀ hwq]
        have : (w : ℚ) ≤ 2040 := by exact_mod_cast hwle
        linarith
      have h2 : (1 : ℚ) ≤ 1490 / h := by
        rw [le_div_iff₀ hhq]
        have : (h : ℚ) ≤ 1490 := by exact_mod_cast hcase
        linarith
      rw [min_eq_right h2, min_eq_right h1]
    have hres : letterboxResized w h = (w, h) := by
      unfold letterboxResized
      rw [hscale]
      simp
    unfold letterboxOffset CANVAS_W CANVAS_H
    rw [hres]
    simp only
    omega
  · -- downscaling: scale = 1490 / h, resized = (1986, 1490)
    push_neg at hcase
    have hcast : (3 : ℚ) * w = 4 * h := by exact_mod_cast h3w4h
    have hhge : (1491 : ℚ) ≤ h := by exact_mod_cast hcase
    have hB1 : (1490 : ℚ) / h ≤ 1 := by
      rw [div_le_one hhq]
      linarith
    have hBA : (1490 : ℚ) / h ≤ 2040 / w := by
      rw [div_le_div_iff₀ hhq hwq]
      nlinarith
    have hscale : letterboxScale w h = (1490 : ℚ) / h := by
      unfold letterboxScale
      rw [hW, hH]
      rw [min_eq_left hB1, min_eq_right hBA]
    have hrh : (h : ℚ) * ((1490 : ℚ) / h) = 1490 := by
      field_simp
    have hrw : (w : ℚ) * ((1490 : ℚ) / h) = 5960 / 3 := by
      field_simp
      linear_combination (1490 : ℚ) * hcast
    have hres : letterboxResized w h = (1986, 1490) := by
      unfold letterboxResized
      rw [hscale, hrh, hrw]
      have hf1 : ⌊(5960 : ℚ) / 3⌋ = 1986 := by
        rw [Int.floor_eq_iff]
        norm_num
      have hf2 : ⌊(1490 : ℚ)⌋ = 1490 := by norm_num
      rw [hf1, hf2]
      decide
    unfold letterboxOffset CANVAS_W CANVAS_H
    rw [hres]
    decide

theorem letterbox_aspect_matched_witness :
    ((0 : Nat) < 400 ∧ (0 : Nat) < 300 ∧ 400 * CANVAS_H = 300 * CANVAS_W) ∧
    (letterboxOffset 400 300).2 < (letterboxOffset 400 300).1 :=
  ⟨⟨by decide, by decide, by decide⟩,
    (letterbox_aspect_matched 400 300 (by decide) (by decide) (by decide)).2.2⟩

/-! ### `next_nonconflicting_path` (claim C7). -/

/-- `f"{root} ({idx}){ext}"` where `splitext(path) = (root, ext)`. -/
def candidatePath (root ext : Str) (i : Nat) : Str :=
  root ++ (' ' :: '(' :: Nat.toDigits 10 i) ++ (')' :: ext)

/-- `next_nonconflicting_path(path)` over an abstract filesystem
`ex : path → Bool` (`os.path.exists`), with `path = root ++ ext`
(`os.path.splitext`).  The python loop `idx = 1; while True: ...`
terminates exactly when some candidate does not exist, which the
hypothesis `hterm` supplies; the result is the first free candidate. -/
def nextNonconflictingPath (ex : Str → Bool) (root ext : Str)
    (hterm : ∃ i, ex (candidatePath root ext (i + 1)) = false) : Str :=
  if ex (root ++ ext) = false then root ++ ext
  else candidatePath root ext (Nat.find hterm + 1)

/-- C7: the returned path never collides with an existing file; if the
desired path is free it is returned unchanged; otherwise the result is
the first free candidate `root (i).ext` with `i = 1, 2, …`; and the
index is uniquely determined: if all candidates before `i+1` exist and
candidate `i+1` is free, the result is exactly `root (i+1).ext`. -/
theorem next_nonconflicting_path_spec (ex : Str → Bool) (root ext : Str)
    (hterm : ∃ i, ex (candidatePath root ext (i + 1)) = false) :
    ex (nextNonconflictingPath ex root ext hterm) = false ∧
    (ex (root ++ ext) = false → nextNonconflictingPath ex root ext hterm = root ++ ext) ∧
    (ex (root ++ ext) = true →
      ∃ i, nextNonconflictingPath ex root ext hterm = candidatePath root ext (i + 1) ∧
        ex (candidatePath root ext (i + 1)) = false ∧
        ∀ j < i, ex (candidatePath root ext (j + 1)) = true) ∧
    (∀ i, ex (root ++ ext) = true → ex (candidatePath root ext (i + 1)) = false →
      (∀ j < i, ex (candidatePath root ext (j + 1)) = true) →
      nextNonconflictingPath ex root ext hterm = candidatePath root ext (i + 1)) := by
  by_cases hbase : ex (root ++ ext) = false
  · unfold nextNonconflictingPath
    rw [if_pos hbase]
    refine ⟨hbase, fun _ => rfl, fun htrue => ?_, fun i htrue => ?_⟩
    · rw [hbase] at htrue; exact absurd htrue (by decide)
    · rw [hbase] at htrue; exact absurd htrue (by decide)
  · unfold nextNonconflictingPath
    rw [if_neg hbase]
    have hall : ∀ j, j < Nat.find hterm → ex (candidatePath root ext (j + 1)) = true := by
      intro j hj
      have := Nat.find_min hterm hj
      cases hexval : ex (candidatePath root ext (j + 1)) with
      | true => rfl
      | false => exact absurd hexval this
    refine ⟨Nat.find_spec hterm, fun hfalse => absurd hfalse hbase, fun _ => ?_, ?_⟩
    · exact ⟨Nat.find hterm, rfl, Nat.find_spec hterm, hall⟩
    · intro i _ hfree hprev
      have h1 : Nat.find hterm ≤ i := Nat.find_min' hterm hfree
      have h2 : ¬ Nat.find hterm < i := by
        intro hlt
        have := hprev (Nat.find hterm) hlt
        rw [Nat.find_spec hterm] at this
        exact absurd this (by decide)
      have : Nat.find hterm = i := by omega
      rw [this]

def exFilesC7 : Str → Bool := fun s => decide (s = ['X', '.', 'd', 'o', 'c', 'x'])

theorem exFilesC7_term :
    ∃ i, exFilesC7 (candidatePath ['X'] ['.', 'd', 'o', 'c', 'x'] (i + 1)) = false :=
  ⟨0, by decide⟩

theorem next_nonconflicting_path_witness :
    (exFilesC7 (['X'] ++ ['.', 'd', 'o', 'c', 'x']) = true ∧
      exFilesC7 (candidatePath ['X'] ['.', 'd', 'o', 'c', 'x'] 1) = false ∧
      candidatePath ['X'] ['.', 'd', 'o', 'c', 'x'] 1 =
        ['X', ' ', '(', '1', ')', '.', 'd', 'o', 'c', 'x']) ∧
    nextNonconflictingPath exFilesC7 ['X'] ['.', 'd', 'o', 'c', 'x'] exFilesC7_term =
      candidatePath ['X'] ['.', 'd', 'o', 'c', 'x'] 1 :=
  ⟨⟨by decide, by decide, by decide⟩,
    (next_nonconflicting_path_spec exFilesC7 ['X'] ['.', 'd', 'o', 'c', 'x']
      exFilesC7_term).2.2.2 0 (by decide) (by decide)
      (fun j hj => absurd hj (Nat.not_lt_zero j))⟩

/-! ### `classify_photos` of `generate_report.py` (claim C8). -/

/-- `os.path.basename` (POSIX): the part после the last `/`. -/
def basename (p : Str) : Str :=
  ((p.reverse.takeWhile (fun c => c ≠ '/')).reverse)

/-- `name.startswith("走访")`. -/
def ruleVisit (f : Str) : Bool := (['走', '访']).isPrefixOf (basename f)

/-- `"贝壳" in name`. -/
def ruleBeike (f : Str) : Bool := decide (['贝', '壳'] <:+: basename f)

/-- `"安居客" in name`. -/
def ruleAnjuke (f : Str) : Bool := decide (['安', '居', '客'] <:+: basename f)

/-- `"评估" in name or "查询" in name`. -/
def ruleAppraisal (f : Str) : Bool :=
  decide (['评', '估'] <:+: basename f) || decide (['查', '询'] <:+: basename f)

/-- The four buckets `走访照片 / 贝壳查询 / 安居客查询 / 评估`. -/
structure PhotoBuckets where
  visit : List Str
  beike : List Str
  anjuke : List Str
  appraisal : List Str
  deriving DecidableEq

/-- One iteration of the `for f in files` loop: first matching rule wins,
files matching no rule are dropped. -/
def classifyStep (b : PhotoBuckets) (f : Str) : PhotoBuckets :=
  if ruleVisit f then { b with visit := b.visit ++ [f] }
  else if ruleBeike f then { b with beike := b.beike ++ [f] }
  else if ruleAnjuke f then { b with anjuke := b.anjuke ++ [f] }
  else if ruleAppraisal f then { b with appraisal := b.appraisal ++ [f] }
  else b

def classifyPhotos (files : List Str) : PhotoBuckets :=
  files.foldl classifyStep ⟨[], [], [], []⟩

/-- Effective membership predicates: first matching rule wins. -/
def qVisit (f : Str) : Bool := ruleVisit f

def qBeike (f : Str) : Bool := !ruleVisit f && ruleBeike f

def qAnjuke (f : Str) : Bool := !ruleVisit f && !ruleBeike f && ruleAnjuke f

def qAppraisal (f : Str) : Bool :=
  !ruleVisit f && !ruleBeike f && !ruleAnjuke f && ruleAppraisal f

theorem classifyPhotos_foldl (files : List Str) : ∀ b : PhotoBuckets,
    files.foldl classifyStep b =
      ⟨b.visit ++ files.filter qVisit, b.beike ++ files.filter qBeike,
        b.anjuke ++ files.filter qAnjuke, b.appraisal ++ files.filter qAppraisal⟩ := by
  induction files with
  | nil => intro b; cases b; simp
  | cons f rest ih =>
    intro b
    rw [List.foldl_cons, ih (classifyStep b f)]
    by_cases h1 : ruleVisit f
    · simp [classifyStep, h1, qVisit, qBeike, qAnjuke, qAppraisal, List.filter_cons]
    · by_cases h2 : ruleBeike f
      · simp [classifyStep, h1, h2, qVisit, qBeike, qAnjuke, qAppraisal, List.filter_cons]
      · by_cases h3 : ruleAnjuke f
        · simp [classifyStep, h1, h2, h3, qVisit, qBeike, qAnjuke, qAppraisal,
            List.filter_cons]
        · by_cases h4 : ruleAppraisal f
          · simp [classifyStep, h1, h2, h3, h4, qVisit, qBeike, qAnjuke, qAppraisal,
              List.filter_cons]
          · simp [classifyStep, h1, h2, h3, h4, qVisit, qBeike, qAnjuke, qAppraisal,
              List.filter_cons]

/-- C8: each bucket of `classify_photos` is exactly the order-preserving
filter of the input list by its effective first-match predicate; hence a
file lands in at most one bucket, chosen by the fixed priority order, and
a file matching no rule lands in no bucket. -/
theorem classify_photos_spec (files : List Str) :
    ((classifyPhotos files).visit = files.filter qVisit ∧
      (classifyPhotos files).beike = files.filter qBeike ∧
      (classifyPhotos files).anjuke = files.filter qAnjuke ∧
      (classifyPhotos files).appraisal = files.filter qAppraisal) ∧
    (∀ f, (f ∈ (classifyPhotos files).visit →
        f ∉ (classifyPhotos files).beike ∧ f ∉ (classifyPhotos files).anjuke ∧
          f ∉ (classifyPhotos files).appraisal) ∧
      (f ∈ (classifyPhotos files).beike →
        f ∉ (classifyPhotos files).anjuke ∧ f ∉ (classifyPhotos files).appraisal) ∧
      (f ∈ (classifyPhotos files).anjuke → f ∉ (classifyPhotos files).appraisal)) ∧
    (∀ f, ruleVisit f = false → ruleBeike f = false → ruleAnjuke f = false →
      ruleAppraisal f = false →
      f ∉ (classifyPhotos files).visit ∧ f ∉ (classifyPhotos files).beike ∧
        f ∉ (classifyPhotos files).anjuke ∧ f ∉ (classifyPhotos files).appraisal) := by
  have hchar := classifyPhotos_foldl files ⟨[], [], [], []⟩
  have h1 : (classifyPhotos files).visit = files.filter qVisit := by
    unfold classifyPhotos
    rw [hchar]
    simp
  have h2 : (classifyPhotos files).beike = files.filter qBeike := by
    unfold classifyPhotos
    rw [hchar]
    simp
  have h3 : (classifyPhotos files).anjuke = files.filter qAnjuke := by
    unfold classifyPhotos
    rw [hchar]
    simp
  have h4 : (classifyPhotos files).appraisal = files.filter qAppraisal := by
    unfold classifyPhotos
    rw [hchar]
    simp
  rw [h1, h2, h3, h4]
  refine ⟨⟨rfl, rfl, rfl, rfl⟩, ?_, ?_⟩
  · intro f
    refine ⟨?_, ?_, ?_⟩
    · intro hv
      rw [List.mem_filter] at hv
      refine ⟨?_, ?_, ?_⟩ <;>
        · rw [List.mem_filter]
          rintro ⟨-, hq⟩
          simp_all [qVisit, qBeike, qAnjuke, qAppraisal]
    · intro hb
      rw [List.mem_filter] at hb
      refine ⟨?_, ?_⟩ <;>
        · rw [List.mem_filter]
          rintro ⟨-, hq⟩
          simp_all [qVisit, qBeike, qAnjuke, qAppraisal]
    · intro ha
      rw [List.mem_filter] at ha
      rw [List.mem_filter]
      rintro ⟨-, hq⟩
      simp_all [qAnjuke, qAppraisal]
  · intro f hr1 hr2 hr3 hr4
    refine ⟨?_, ?_, ?_, ?_⟩ <;>
      · rw [List.mem_filter]
        rintro ⟨-, hq⟩
        simp_all [qVisit, qBeike, qAnjuke, qAppraisal]

theorem classify_photos_spec_witness :
    (ruleVisit ['其', '他'] = false ∧ ruleBeike ['其', '他'] = false ∧
      ruleAnjuke ['其', '他'] = false ∧ ruleAppraisal ['其', '他'] = false) ∧
    (['其', '他'] ∉ (classifyPhotos [['走', '访', '一'], ['贝', '壳', '图'], ['其', '他']]).visit ∧
      ['其', '他'] ∉ (classifyPhotos [['走', '访', '一'], ['贝', '壳', '图'], ['其', '他']]).beike ∧
      ['其', '他'] ∉ (classifyPhotos [['走', '访', '一'], ['贝', '壳', '图'], ['其', '他']]).anjuke ∧
      ['其', '他'] ∉ (classifyPhotos [['走', '访', '一'], ['贝', '壳', '图'], ['其', '他']]).appraisal) :=
  ⟨by decide,
    (classify_photos_spec [['走', '访', '一'], ['贝', '壳', '图'], ['其', '他']]).2.2
      ['其', '他'] (by decide) (by decide) (by decide) (by decide)⟩

/-! ### The interactive wizard's field-collection loop (claim C9).

`prompt` strips the input; an input whose `upper()` is `"Q"` (i.e. `q` or
`Q`) raises `KeyboardInterrupt`, which `interactive` catches and returns
from (session cancelled); an input whose `upper()` is `"B"` returns the
`__BACK__` marker.  On `__BACK__` the inner `while` is left without
storing the field, the `for key in PLACEHOLDER_KEYS` loop is then broken
(`if key not in fields: break`), and since `len(fields) < 3` the outer
`while True` restarts with `fields = {}` — i.e. from the *first* field.
Empty input re-prompts the same field.  One input is consumed per
prompt; `pending i` records which field index would be prompted next
when the input script is exhausted. -/

inductive WizOutcome where
  | cancelled
  | completed (vals : List Str) (rest : List Str)
  | pending (fieldIdx : Nat)
  deriving DecidableEq

def wizardFields : List Str → List Str → WizOutcome
  | vals, [] => .pending vals.length
  | vals, inp :: rest =>
    let v := trimWS inp
    if v = ['Q'] ∨ v = ['q'] then .cancelled
    else if v = ['B'] ∨ v = ['b'] then wizardFields [] rest
    else if v = [] then wizardFields vals rest
    else if vals.length + 1 < 3 then wizardFields (vals ++ [v]) rest
    else .completed (vals ++ [v]) rest

/-- C9: evaluating the wizard at the failing input.  After valid entries
for fields 0 (客户名称) and 1 (行业分类), entering the back command at
field 2 (经营地址) restarts the whole form: the next prompt is field 0,
not the previous field 1, and the two already-entered values are
discarded — although the code itself prints
`返回上一项 → 重填 行业分类`.  The cancel input does abort the session,
empty input does re-prompt the same field, and back at the first field
re-prompts the first field. -/
theorem interactive_back_restarts_from_first_field :
    (wizardFields [] [['甲'], ['乙'], ['B']] = .pending 0 ∧ (0 : Nat) ≠ 1) ∧
    wizardFields [] [['甲'], ['乙'], ['Q']] = .cancelled ∧
    wizardFields [] [[], ['甲'], ['乙'], ['丙']] = .completed [['甲'], ['乙'], ['丙']] [] ∧
    wizardFields [] [['B']] = .pending 0 := by
  decide

/-! ### `sanitize_filename` (claim C10). -/

/-- The characters of the class `[\\/:*?"<>|]`. -/
def forbiddenChars : List Char := ['\\', '/', ':', '*', '?', '"', '<', '>', '|']

/-- `sanitize_filename(name)`:
`safe = (name or "未命名").strip() or "未命名"`, then every forbidden
character is replaced by `_`. -/
def sanitizeFilename (name : Str) : Str :=
  let safe0 := trimWS (if name = [] then ['未', '命', '名'] else name)
  let safe := if safe0 = [] then ['未', '命', '名'] else safe0
  safe.map (fun c => if c ∈ forbiddenChars then '_' else c)

/-- C10: `sanitize_filename` always returns a nonempty string free of the
forbidden characters, falling back to the default name `未命名` when the
input is empty or whitespace-only. -/
theorem sanitize_filename_spec (name : Str) :
    sanitizeFilename name ≠ [] ∧
    (∀ c ∈ sanitizeFilename name, c ∉ forbiddenChars) ∧
    ((name = [] ∨ trimWS name = []) → sanitizeFilename name = ['未', '命', '名']) := by
  refine ⟨?_, ?_, ?_⟩
  · unfold sanitizeFilename
    by_cases h0 : trimWS (if name = [] then ['未', '命', '名'] else name) = []
    · simp only [h0, if_pos rfl]
      decide
    · simp only [if_neg h0]
      intro hmap
      exact h0 (List.map_eq_nil_iff.mp hmap)
  · intro c hc
    unfold sanitizeFilename at hc
    obtain ⟨a, _, rfl⟩ := List.mem_map.mp hc
    by_cases ha : a ∈ forbiddenChars
    · rw [if_pos ha]
      decide
    · rw [if_neg ha]
      exact ha
  · rintro (rfl | htrim)
    · decide
    · by_cases hname : name = []
      · subst hname
        decide
      · unfold sanitizeFilename
        simp only [if_neg hname, htrim, if_pos rfl]
        decide

theorem sanitize_filename_spec_witness :
    trimWS [' '] = [] ∧ sanitizeFilename [' '] = ['未', '命', '名'] :=
  ⟨by decide, (sanitize_filename_spec [' ']).2.2 (Or.inr (by decide))⟩
